import Mathlib

/-!
Shallow embedding of `MyDataWarehouse` (src/my_data_warehouse.py): a
partitioned columnar store with an insert buffer, per-partition per-column
zone maps (min/max/row-count), zone-map pruning with an 8-digit
zero-padding fix for the `id` column, and in-place partition rewrites for
update/delete.

Modelling conventions:
- A Python row dict is an association list `Row`; a column absent from a
  row is a null cell (`Option` lookup).
- Cell values are the tagged variant `Value` (string or integer), matching
  the two value shapes the program stores and compares; Python coerces
  both to strings (`str`) for key matching.
- Partition files are keyed by their numeric index (`part_{idx:05d}`), so
  the store is an association list `Nat -> Table`; the LRU read cache of
  the source (lines 39-50, 90-95) is write-through (refreshed on every
  write, invalidated on delete), so reads through it always equal direct
  store reads and the cache is omitted from the state.
- Raised exceptions (`KeyError` from `table[key_column]`, `ValueError`
  from `min([])`, `FileNotFoundError` from reading a missing file) are
  `Except String` results.
-/

/-- A stored cell value: pyarrow string or int64 column element. -/
inductive Value where
  | vStr : String → Value
  | vInt : Int → Value
deriving DecidableEq, Repr

/-- Python `str(x)` on a cell value. -/
def py_str : Value → String
  | .vStr s => s
  | .vInt n => toString n

/-- Python `str` applied to an optional cell, where a missing cell is
Python `None` (`str(None) = "None"`), as in `_update_metadata`. -/
def py_str_cell : Option Value → String
  | none => "None"
  | some v => py_str v

/-- Python lexicographic `<` on code-point lists (the order behind `str`
comparison, `min`, `max`). -/
def lex_lt : List Char → List Char → Bool
  | [], [] => false
  | [], _ :: _ => true
  | _ :: _, [] => false
  | a :: as, b :: bs =>
    if a.toNat < b.toNat then true
    else if b.toNat < a.toNat then false
    else lex_lt as bs

/-- Python string `<`. -/
def str_lt (a b : String) : Bool := lex_lt a.data b.data

/-- Character-list form of Python `str.zfill(n)`: left-pad with `'0'` to
width `n`, keeping a leading sign in front of the padding. -/
def pad_chars (n : Nat) (l : List Char) : List Char :=
  if n ≤ l.length then l
  else
    match l with
    | [] => List.replicate n '0'
    | c :: rest =>
      if c = '-' ∨ c = '+' then c :: (List.replicate (n - (rest.length + 1)) '0' ++ rest)
      else List.replicate (n - (rest.length + 1)) '0' ++ (c :: rest)

/-- Python `s.zfill(n)`. -/
def zfill (n : Nat) (s : String) : String := String.mk (pad_chars n s.data)

/-- Python `min` over a list of strings (`none` on the empty list, where
Python raises `ValueError`); ties keep the earliest element. -/
def py_min : List String → Option String
  | [] => none
  | x :: xs => some (xs.foldl (fun acc y => if str_lt y acc then y else acc) x)

/-- Python `max` over a list of strings (`none` on the empty list). -/
def py_max : List String → Option String
  | [] => none
  | x :: xs => some (xs.foldl (fun acc y => if str_lt acc y then y else acc) x)

/-- The ordering `pc.min_max` uses on a column: numeric on int64 columns,
lexicographic on string columns.  A pyarrow column is homogeneous
(`Table.from_pylist` rejects mixed types), so the cross cases never arise
for real tables; they are fixed arbitrarily to keep the function total. -/
def val_lt : Value → Value → Bool
  | .vInt m, .vInt n => m < n
  | .vStr s, .vStr t => lex_lt s.data t.data
  | .vInt _, .vStr _ => true
  | .vStr _, .vInt _ => false

/-- `pc.min_max(...)["min"]` over the non-null cells of a column. -/
def val_min : List Value → Option Value
  | [] => none
  | x :: xs => some (xs.foldl (fun acc y => if val_lt y acc then y else acc) x)

/-- `pc.min_max(...)["max"]` over the non-null cells of a column. -/
def val_max : List Value → Option Value
  | [] => none
  | x :: xs => some (xs.foldl (fun acc y => if val_lt acc y then y else acc) x)

/-- One row: a Python dict mapping column names to values.  A column
missing from the list is a null cell of the enclosing table. -/
abbrev Row := List (String × Value)

/-- A materialized partition: a pyarrow table, i.e. a schema (ordered
column names) plus rows; cells are read by column-name lookup, `none`
standing for arrow null. -/
structure Table where
  schema : List String
  rows : List Row
deriving DecidableEq, Repr

/-- One min/max slot of a zone-map entry.  `pyNone` is Python `None` (the
`id` branch of `_update_metadata` on an empty table); `scal none` is an
arrow null scalar (the `pc.min_max` result on an all-null column), which
is *not* Python `None` and stringifies to `"None"`. -/
inductive MScal where
  | pyNone : MScal
  | scal : Option Value → MScal
deriving DecidableEq, Repr

/-- `str()` of a stored bound, as `_trim_partitions` applies it. -/
def mscal_str : MScal → String
  | .pyNone => "None"
  | .scal none => "None"
  | .scal (some v) => py_str v

/-- Zone-map entry of one (partition, column): min, max, row count. -/
structure ColMeta where
  mn : MScal
  mx : MScal
  num_rows : Nat
deriving DecidableEq, Repr

/-- The 8-digit padded comparison key `str(x).zfill(8)` used by
`_update_metadata` for the `id` column (`x` may be Python `None` for a
null cell, giving `"0000None"`). -/
def pad_key_cell (ov : Option Value) : String := zfill 8 (py_str_cell ov)

/-- `_update_metadata` for a single column of a table. -/
def compute_col_meta (t : Table) (c : String) : ColMeta :=
  if c = "id" then
    let padded := t.rows.map (fun r => pad_key_cell (r.lookup "id"))
    match py_min padded, py_max padded with
    | some a, some b => ⟨.scal (some (.vStr a)), .scal (some (.vStr b)), t.rows.length⟩
    | _, _ => ⟨.pyNone, .pyNone, 0⟩
  else
    let vals := t.rows.filterMap (fun r => r.lookup c)
    ⟨.scal (val_min vals), .scal (val_max vals), t.rows.length⟩

/-- `_update_metadata`: the zone-map entry of every schema column. -/
def compute_meta (t : Table) : List (String × ColMeta) :=
  t.schema.map (fun c => (c, compute_col_meta t c))

/-- The whole warehouse state (`MyDataWarehouse` instance plus its storage
directory): partition files keyed by index, the zone-map dict, the
partition path list, and the insert buffer. -/
structure Warehouse where
  partition_size : Int
  buffer : List Row
  buffer_rows : Nat
  store : List (Nat × Table)
  metadata : List (Nat × List (String × ColMeta))
  parts : List Nat
deriving DecidableEq, Repr

/-- `__init__`: wipe the storage directory and start empty (the glob over
the fresh directory finds no partitions). -/
def mkWarehouse (partition_size : Int) : Warehouse :=
  ⟨partition_size, [], 0, [], [], []⟩

/-- Overwrite-or-insert into an association list (Python dict assignment /
rewriting a partition file in place). -/
def set_entry {α : Type} (l : List (Nat × α)) (k : Nat) (v : α) : List (Nat × α) :=
  (k, v) :: l.filter (fun kv => kv.1 != k)

/-- Remove from an association list (dict `pop` / file `unlink`). -/
def del_entry {α : Type} (l : List (Nat × α)) (k : Nat) : List (Nat × α) :=
  l.filter (fun kv => kv.1 != k)

/-- `pa.Table.from_pylist` schema inference: the union of the rows' keys
in first-appearance order. -/
def schema_of_rows (rows : List Row) : List String :=
  rows.foldl (fun acc r => (r.map Prod.fst).foldl
    (fun a c => if a.contains c then a else a ++ [c]) acc) []

/-- `pa.Table.from_pylist`. -/
def table_from_rows (rows : List Row) : Table :=
  ⟨schema_of_rows rows, rows⟩

/-- `_write_partition`: write the file and refresh its zone-map entry
(the cache refresh is read-transparent and omitted). -/
def write_partition (w : Warehouse) (t : Table) (p : Nat) : Warehouse :=
  { w with store := set_entry w.store p t,
           metadata := set_entry w.metadata p (compute_meta t) }

/-- The buffer flush performed at the top of `update_data`, `delete_data`
and `query_data` when pending rows exist. -/
def flush_pending (w : Warehouse) : Warehouse :=
  if w.buffer_rows > 0 then
    let t := table_from_rows w.buffer
    let p := w.parts.length
    let w2 := write_partition w t p
    { w2 with parts := w.parts ++ [p], buffer := [], buffer_rows := 0 }
  else w

/-- `add_data`: append to the buffer; once the buffer reaches
`partition_size`, flush it into the partition at index
`len(self.partitions)` (`_next_partition_path`). -/
def add_data (w : Warehouse) (row : Row) : Warehouse :=
  let w1 := { w with buffer := w.buffer ++ [row], buffer_rows := w.buffer_rows + 1 }
  if (w1.buffer_rows : Int) < w1.partition_size then w1
  else
    let t := table_from_rows w1.buffer
    let p := w1.parts.length
    let w2 := write_partition w1 t p
    { w2 with parts := w1.parts ++ [p], buffer := [], buffer_rows := 0 }

/-- The candidacy test of `_trim_partitions` for one partition: keep when
metadata or column bounds are missing, otherwise keep exactly when the key
range overlaps the partition range. -/
def keep_part (md : List (Nat × List (String × ColMeta))) (kc : String)
    (key_min key_max : String) (p : Nat) : Bool :=
  match md.lookup p with
  | none => true
  | some m =>
    if m.isEmpty then true
    else
      match m.lookup kc with
      | none => true
      | some cm =>
        match cm.mn, cm.mx with
        | .pyNone, _ => true
        | _, .pyNone => true
        | .scal oa, .scal ob =>
          let part_min := mscal_str (.scal oa)
          let part_max := mscal_str (.scal ob)
          !(str_lt key_max part_min || str_lt part_max key_min)

/-- `_trim_partitions`: normalize the key(s), compute the (padded, for
`id`) key range, and keep the partitions whose range overlaps; `none` is
the `ValueError` that `min`/`max` raise on an empty key list. -/
def trim_partitions (w : Warehouse) (kc : String) (key_list : List String) :
    Option (List Nat) :=
  let cmp_keys := if kc = "id" then key_list.map (zfill 8) else key_list
  match py_min cmp_keys, py_max cmp_keys with
  | some key_min, some key_max =>
    some (w.parts.filter (keep_part w.metadata kc key_min key_max))
  | _, _ => none

/-- The row-level equality mask of `update_data`/`delete_data` as a
tri-valued arrow boolean: `pc.equal(pc.cast(col, string), key)` is null on
a null cell. -/
def row_mask (kc key_str : String) (r : Row) : Option Bool :=
  (r.lookup kc).map (fun v => py_str v == key_str)

/-- `pc.any(mask).as_py()` truthiness: a row matches when its mask is the
non-null `true`. -/
def row_match (kc key_str : String) (r : Row) : Bool :=
  row_mask kc key_str r == some true

/-- A row survives `table.filter(pc.invert(mask))` in `delete_data`
exactly when its mask is the non-null `false` (null masks are dropped). -/
def row_mask_false (kc key_str : String) (r : Row) : Bool :=
  row_mask kc key_str r == some false

/-- The row-level membership mask of `query_data`:
`pc.is_in(pc.cast(col, string), key_set)`; a null cell is not a member. -/
def row_member (kc : String) (key_strs : List String) (r : Row) : Bool :=
  match r.lookup kc with
  | some v => key_strs.contains (py_str v)
  | none => false

/-- One rewritten row of `update_data`: per schema column,
`pc.if_else(mask, patch_value, old)` when the column is in the patch
(null mask gives a null cell), the old cell otherwise. -/
def patch_row (schema : List String) (patch : List (String × Value))
    (kc key_str : String) (r : Row) : Row :=
  schema.filterMap (fun c =>
    match patch.lookup c with
    | some nv =>
      match row_mask kc key_str r with
      | some true => some (c, nv)
      | some false => (r.lookup c).map (fun v => (c, v))
      | none => none
    | none => (r.lookup c).map (fun v => (c, v)))

/-- The candidate-partition loop of `update_data`. -/
def update_loop (w : Warehouse) (kc key_str : String)
    (patch : List (String × Value)) : List Nat → Except String Warehouse
  | [] => .ok w
  | p :: rest =>
    match w.store.lookup p with
    | none => .error "FileNotFoundError"
    | some t =>
      if t.schema.contains kc then
        if t.rows.any (row_match kc key_str) then
          let t2 : Table := ⟨t.schema, t.rows.map (patch_row t.schema patch kc key_str)⟩
          .ok (write_partition w t2 p)
        else update_loop w kc key_str patch rest
      else .error "KeyError"

/-- `update_data`: flush, prune by the single (padded, for `id`) key,
then patch and rewrite the first candidate partition holding a match. -/
def update_data (w : Warehouse) (kc : String) (key_value : Value)
    (patch : List (String × Value)) : Except String Warehouse :=
  let w1 := flush_pending w
  let key_str := py_str key_value
  let key_trim := if kc = "id" then zfill 8 key_str else key_str
  match trim_partitions w1 kc [key_trim] with
  | none => .error "ValueError"
  | some cands => update_loop w1 kc key_str patch cands

/-- The candidate-partition loop of `delete_data`. -/
def delete_loop (w : Warehouse) (kc key_str : String) :
    List Nat → Except String Warehouse
  | [] => .ok w
  | p :: rest =>
    match w.store.lookup p with
    | none => .error "FileNotFoundError"
    | some t =>
      if t.schema.contains kc then
        if t.rows.any (row_match kc key_str) then
          let filtered := t.rows.filter (row_mask_false kc key_str)
          if filtered.isEmpty then
            .ok { w with store := del_entry w.store p,
                         metadata := del_entry w.metadata p,
                         parts := w.parts.erase p }
          else .ok (write_partition w ⟨t.schema, filtered⟩ p)
        else delete_loop w kc key_str rest
      else .error "KeyError"

/-- `delete_data`: flush, prune by the single (padded, for `id`) key,
then drop all matching rows from the first candidate partition holding a
match, deleting the partition outright when it becomes empty. -/
def delete_data (w : Warehouse) (kc : String) (key_value : Value) :
    Except String Warehouse :=
  let w1 := flush_pending w
  let key_str := py_str key_value
  let key_trim := if kc = "id" then zfill 8 key_str else key_str
  match trim_partitions w1 kc [key_trim] with
  | none => .error "ValueError"
  | some cands => delete_loop w1 kc key_str cands

/-- `filtered.to_pylist()` for one row: the row restricted to the schema
columns (null cells carry no pair). -/
def to_py_row (schema : List String) (r : Row) : Row :=
  schema.filterMap (fun c => (r.lookup c).map (fun v => (c, v)))

/-- The candidate-partition loop of `query_data`, accumulating results in
partition order then row order. -/
def query_loop (w : Warehouse) (kc : String) (key_strs : List String) :
    List Nat → List Row → Except String (List Row)
  | [], acc => .ok acc
  | p :: rest, acc =>
    match w.store.lookup p with
    | none => .error "FileNotFoundError"
    | some t =>
      if t.schema.contains kc then
        if t.rows.any (row_member kc key_strs) then
          query_loop w kc key_strs rest
            (acc ++ (t.rows.filter (row_member kc key_strs)).map (to_py_row t.schema))
        else query_loop w kc key_strs rest acc
      else .error "KeyError"

/-- `query_data`: flush, prune by the (padded, for `id`) range of the full
key set, scan all surviving candidates collecting member rows.  The first
component is the post-flush state (the buffer flush persists even when the
scan raises). -/
def query_data (w : Warehouse) (kc : String) (keys : List Value) :
    Warehouse × Except String (List Row) :=
  let w1 := flush_pending w
  let key_strs := keys.map py_str
  let keys_for_trim := if kc = "id" then key_strs.map (zfill 8) else key_strs
  match trim_partitions w1 kc keys_for_trim with
  | none => (w1, .error "ValueError")
  | some cands => (w1, query_loop w1 kc key_strs cands [])

/-- Modelled from the spec ("the set of rows returned by pruned scan
equals the set returned by an exhaustive unpruned scan"): the reference
scan that visits every live partition with the same membership test,
skipping pruning entirely. -/
def spec_exhaustive_scan (w : Warehouse) (kc : String) (keys : List Value) :
    Warehouse × Except String (List Row) :=
  let w1 := flush_pending w
  let key_strs := keys.map py_str
  (w1, query_loop w1 kc key_strs w1.parts [])

/-! ### Order lemmas for Python string comparison -/

theorem lex_lt_irrefl (l : List Char) : lex_lt l l = false := by
  induction l with
  | nil => rfl
  | cons a as ih => simp [lex_lt, ih]

theorem lex_lt_trans {a : List Char} : ∀ {b c : List Char},
    lex_lt a b = true → lex_lt b c = true → lex_lt a c = true := by
  induction a with
  | nil =>
    intro b c h1 h2
    cases b with
    | nil => simp [lex_lt] at h1
    | cons y ys =>
      cases c with
      | nil => simp [lex_lt] at h2
      | cons z zs => simp [lex_lt]
  | cons x xs ih =>
    intro b c h1 h2
    cases b with
    | nil => simp [lex_lt] at h1
    | cons y ys =>
      cases c with
      | nil => simp [lex_lt] at h2
      | cons z zs =>
        by_cases hxy : x.toNat < y.toNat
        · by_cases hyz : y.toNat < z.toNat
          · simp [lex_lt, show x.toNat < z.toNat by omega]
          · by_cases hzy : z.toNat < y.toNat
            · simp [lex_lt, hyz, hzy] at h2
            · simp [lex_lt, show x.toNat < z.toNat by omega]
        · by_cases hyx : y.toNat < x.toNat
          · simp [lex_lt, hxy, hyx] at h1
          · simp only [lex_lt, if_neg hxy, if_neg hyx] at h1
            by_cases hyz : y.toNat < z.toNat
            · simp [lex_lt, show x.toNat < z.toNat by omega]
            · by_cases hzy : z.toNat < y.toNat
              · simp [lex_lt, hyz, hzy] at h2
              · simp only [lex_lt, if_neg hyz, if_neg hzy] at h2
                simp only [lex_lt, if_neg (show ¬ x.toNat < z.toNat by omega),
                  if_neg (show ¬ z.toNat < x.toNat by omega)]
                exact ih h1 h2

theorem lex_lt_connex {a : List Char} : ∀ {b : List Char},
    lex_lt a b = false → lex_lt b a = false → a = b := by
  induction a with
  | nil =>
    intro b h1 h2
    cases b with
    | nil => rfl
    | cons y ys => simp [lex_lt] at h1
  | cons x xs ih =>
    intro b h1 h2
    cases b with
    | nil => simp [lex_lt] at h2
    | cons y ys =>
      by_cases hxy : x.toNat < y.toNat
      · simp [lex_lt, hxy] at h1
      · by_cases hyx : y.toNat < x.toNat
        · simp [lex_lt, hyx] at h2
        · have hchar : x = y := by
            have hn : x.toNat = y.toNat := by omega
            exact Char.eq_of_val_eq (UInt32.ext hn)
          simp only [lex_lt, if_neg hxy, if_neg hyx] at h1
          simp only [lex_lt, if_neg hyx, if_neg hxy] at h2
          rw [hchar, ih h1 h2]

theorem str_lt_irrefl (s : String) : str_lt s s = false := lex_lt_irrefl s.data

theorem str_lt_trans {a b c : String} (h1 : str_lt a b = true)
    (h2 : str_lt b c = true) : str_lt a c = true := lex_lt_trans h1 h2

theorem str_lt_connex {a b : String} (h1 : str_lt a b = false)
    (h2 : str_lt b a = false) : a = b := String.ext (lex_lt_connex h1 h2)

/-! ### Generic fold lemmas for `min`/`max` over a strict total order -/

theorem fold_min_not_lt {α : Type} (lt : α → α → Bool)
    (hirr : ∀ x, lt x x = false)
    (htr : ∀ {x y z : α}, lt x y = true → lt y z = true → lt x z = true)
    (hconn : ∀ {x y : α}, lt x y = false → lt y x = false → x = y)
    (xs : List α) : ∀ (a x : α), (x = a ∨ x ∈ xs) →
    lt x (xs.foldl (fun acc y => if lt y acc then y else acc) a) = false := by
  have hle : ∀ {x y z : α}, lt y x = false → lt z y = false → lt z x = false := by
    intro x y z h1 h2
    cases h3 : lt z x with
    | false => rfl
    | true =>
      by_cases h4 : lt y z = true
      · exact absurd (htr h4 h3) (by simp [h1])
      · have := hconn h2 (by simpa using h4)
        subst this
        exact absurd h3 (by simp [h1])
  induction xs with
  | nil =>
    intro a x hx
    rcases hx with rfl | h
    · exact hirr x
    · simp at h
  | cons y ys ih =>
    intro a x hx
    simp only [List.foldl_cons]
    rcases hx with rfl | hx
    · by_cases hya : lt y x = true
      · rw [if_pos hya]
        have h1 : lt x y = false := by
          cases h : lt x y with
          | false => rfl
          | true => exact absurd (htr h hya) (by simp [hirr])
        exact hle (ih y y (Or.inl rfl)) h1
      · rw [if_neg hya]
        exact ih x x (Or.inl rfl)
    · rcases List.mem_cons.mp hx with rfl | hx2
      · by_cases hya : lt x a = true
        · rw [if_pos hya]
          exact ih x x (Or.inl rfl)
        · rw [if_neg hya]
          exact hle (ih a a (Or.inl rfl)) (by simpa using hya)
      · by_cases hya : lt y a = true
        · rw [if_pos hya]; exact ih y x (Or.inr hx2)
        · rw [if_neg hya]; exact ih a x (Or.inr hx2)

theorem fold_min_mem {α : Type} (lt : α → α → Bool) (xs : List α) :
    ∀ a, (xs.foldl (fun acc y => if lt y acc then y else acc) a = a ∨
          xs.foldl (fun acc y => if lt y acc then y else acc) a ∈ xs) := by
  induction xs with
  | nil => intro a; exact Or.inl rfl
  | cons y ys ih =>
    intro a
    simp only [List.foldl_cons]
    by_cases hya : lt y a = true
    · rw [if_pos hya]
      rcases ih y with h | h
      · exact Or.inr (by simp [h])
      · exact Or.inr (List.mem_cons_of_mem _ h)
    · rw [if_neg hya]
      rcases ih a with h | h
      · exact Or.inl h
      · exact Or.inr (List.mem_cons_of_mem _ h)

theorem fold_max_not_lt {α : Type} (lt : α → α → Bool)
    (hirr : ∀ x, lt x x = false)
    (htr : ∀ {x y z : α}, lt x y = true → lt y z = true → lt x z = true)
    (hconn : ∀ {x y : α}, lt x y = false → lt y x = false → x = y)
    (xs : List α) : ∀ (a x : α), (x = a ∨ x ∈ xs) →
    lt (xs.foldl (fun acc y => if lt acc y then y else acc) a) x = false := by
  have hle : ∀ {x y z : α}, lt y x = false → lt z y = false → lt z x = false := by
    intro x y z h1 h2
    cases h3 : lt z x with
    | false => rfl
    | true =>
      by_cases h4 : lt y z = true
      · exact absurd (htr h4 h3) (by simp [h1])
      · have := hconn h2 (by simpa using h4)
        subst this
        exact absurd h3 (by simp [h1])
  induction xs with
  | nil =>
    intro a x hx
    rcases hx with rfl | h
    · exact hirr x
    · simp at h
  | cons y ys ih =>
    intro a x hx
    simp only [List.foldl_cons]
    rcases hx with rfl | hx
    · by_cases hay : lt x y = true
      · rw [if_pos hay]
        have h1 : lt y x = false := by
          cases h : lt y x with
          | false => rfl
          | true => exact absurd (htr hay h) (by simp [hirr])
        exact hle h1 (ih y y (Or.inl rfl))
      · rw [if_neg hay]
        exact ih x x (Or.inl rfl)
    · rcases List.mem_cons.mp hx with rfl | hx2
      · by_cases hay : lt a x = true
        · rw [if_pos hay]
          exact ih x x (Or.inl rfl)
        · rw [if_neg hay]
          exact hle (by simpa using hay) (ih a a (Or.inl rfl))
      · by_cases hay : lt a y = true
        · rw [if_pos hay]; exact ih y x (Or.inr hx2)
        · rw [if_neg hay]; exact ih a x (Or.inr hx2)

theorem fold_max_mem {α : Type} (lt : α → α → Bool) (xs : List α) :
    ∀ a, (xs.foldl (fun acc y => if lt acc y then y else acc) a = a ∨
          xs.foldl (fun acc y => if lt acc y then y else acc) a ∈ xs) := by
  induction xs with
  | nil => intro a; exact Or.inl rfl
  | cons y ys ih =>
    intro a
    simp only [List.foldl_cons]
    by_cases hay : lt a y = true
    · rw [if_pos hay]
      rcases ih y with h | h
      · exact Or.inr (by simp [h])
      · exact Or.inr (List.mem_cons_of_mem _ h)
    · rw [if_neg hay]
      rcases ih a with h | h
      · exact Or.inl h
      · exact Or.inr (List.mem_cons_of_mem _ h)

theorem val_lt_irrefl (v : Value) : val_lt v v = false := by
  cases v with
  | vStr s => simp [val_lt, lex_lt_irrefl]
  | vInt n => simp [val_lt]

theorem val_lt_trans : ∀ {a b c : Value},
    val_lt a b = true → val_lt b c = true → val_lt a c = true := by
  intro a b c h1 h2
  cases a <;> cases b <;> cases c <;> simp [val_lt] at *
  · exact lex_lt_trans h1 h2
  · omega

theorem val_lt_connex : ∀ {a b : Value},
    val_lt a b = false → val_lt b a = false → a = b := by
  intro a b h1 h2
  cases a <;> cases b <;> simp [val_lt] at *
  · exact String.ext (lex_lt_connex h1 h2)
  · omega

/-- Specification of `py_min`: the result is an element no other element
is below. -/
theorem py_min_spec {l : List String} {m : String} (h : py_min l = some m) :
    m ∈ l ∧ ∀ x ∈ l, str_lt x m = false := by
  cases l with
  | nil => simp [py_min] at h
  | cons a xs =>
    simp only [py_min, Option.some.injEq] at h
    subst h
    constructor
    · rcases fold_min_mem str_lt xs a with h | h
      · rw [h]; exact List.mem_cons_self a xs
      · exact List.mem_cons_of_mem _ h
    · intro x hx
      rcases List.mem_cons.mp hx with rfl | hx2
      · exact fold_min_not_lt str_lt str_lt_irrefl (fun h1 h2 => str_lt_trans h1 h2)
          (fun h1 h2 => str_lt_connex h1 h2) xs x x (Or.inl rfl)
      · exact fold_min_not_lt str_lt str_lt_irrefl (fun h1 h2 => str_lt_trans h1 h2)
          (fun h1 h2 => str_lt_connex h1 h2) xs a x (Or.inr hx2)

/-- Specification of `py_max`: the result is an element below no other
element. -/
theorem py_max_spec {l : List String} {m : String} (h : py_max l = some m) :
    m ∈ l ∧ ∀ x ∈ l, str_lt m x = false := by
  cases l with
  | nil => simp [py_max] at h
  | cons a xs =>
    simp only [py_max, Option.some.injEq] at h
    subst h
    constructor
    · rcases fold_max_mem str_lt xs a with h | h
      · rw [h]; exact List.mem_cons_self a xs
      · exact List.mem_cons_of_mem _ h
    · intro x hx
      rcases List.mem_cons.mp hx with rfl | hx2
      · exact fold_max_not_lt str_lt str_lt_irrefl (fun h1 h2 => str_lt_trans h1 h2)
          (fun h1 h2 => str_lt_connex h1 h2) xs x x (Or.inl rfl)
      · exact fold_max_not_lt str_lt str_lt_irrefl (fun h1 h2 => str_lt_trans h1 h2)
          (fun h1 h2 => str_lt_connex h1 h2) xs a x (Or.inr hx2)

/-- Specification of `val_min`. -/
theorem val_min_spec {l : List Value} {m : Value} (h : val_min l = some m) :
    m ∈ l ∧ ∀ x ∈ l, val_lt x m = false := by
  cases l with
  | nil => simp [val_min] at h
  | cons a xs =>
    simp only [val_min, Option.some.injEq] at h
    subst h
    constructor
    · rcases fold_min_mem val_lt xs a with h | h
      · rw [h]; exact List.mem_cons_self a xs
      · exact List.mem_cons_of_mem _ h
    · intro x hx
      rcases List.mem_cons.mp hx with rfl | hx2
      · exact fold_min_not_lt val_lt val_lt_irrefl (fun h1 h2 => val_lt_trans h1 h2)
          (fun h1 h2 => val_lt_connex h1 h2) xs x x (Or.inl rfl)
      · exact fold_min_not_lt val_lt val_lt_irrefl (fun h1 h2 => val_lt_trans h1 h2)
          (fun h1 h2 => val_lt_connex h1 h2) xs a x (Or.inr hx2)

/-- Specification of `val_max`. -/
theorem val_max_spec {l : List Value} {m : Value} (h : val_max l = some m) :
    m ∈ l ∧ ∀ x ∈ l, val_lt m x = false := by
  cases l with
  | nil => simp [val_max] at h
  | cons a xs =>
    simp only [val_max, Option.some.injEq] at h
    subst h
    constructor
    · rcases fold_max_mem val_lt xs a with h | h
      · rw [h]; exact List.mem_cons_self a xs
      · exact List.mem_cons_of_mem _ h
    · intro x hx
      rcases List.mem_cons.mp hx with rfl | hx2
      · exact fold_max_not_lt val_lt val_lt_irrefl (fun h1 h2 => val_lt_trans h1 h2)
          (fun h1 h2 => val_lt_connex h1 h2) xs x x (Or.inl rfl)
      · exact fold_max_not_lt val_lt val_lt_irrefl (fun h1 h2 => val_lt_trans h1 h2)
          (fun h1 h2 => val_lt_connex h1 h2) xs a x (Or.inr hx2)

/-! ### Padding lemmas -/

theorem pad_chars_of_le {n : Nat} {l : List Char} (h : n ≤ l.length) :
    pad_chars n l = l := by
  unfold pad_chars
  rw [if_pos h]

theorem pad_chars_nil (n : Nat) (h : 0 < n) : pad_chars n [] = List.replicate n '0' := by
  unfold pad_chars
  rw [if_neg (by simp; omega)]

theorem pad_chars_cons (n : Nat) (c : Char) (rest : List Char) (h : ¬ n ≤ rest.length + 1) :
    pad_chars n (c :: rest) =
      if c = '-' ∨ c = '+' then c :: (List.replicate (n - (rest.length + 1)) '0' ++ rest)
      else List.replicate (n - (rest.length + 1)) '0' ++ (c :: rest) := by
  unfold pad_chars
  rw [if_neg (by simpa using h)]

theorem le_length_pad_chars (n : Nat) (l : List Char) : n ≤ (pad_chars n l).length := by
  by_cases h : n ≤ l.length
  · rw [pad_chars_of_le h]; exact h
  · cases l with
    | nil =>
      rw [pad_chars_nil n (by simp at h; omega)]
      simp
    | cons c rest =>
      have h2 : ¬ n ≤ rest.length + 1 := by simp at h; omega
      rw [pad_chars_cons n c rest h2]
      by_cases hc : c = '-' ∨ c = '+'
      · rw [if_pos hc]
        simp only [List.length_cons, List.length_append, List.length_replicate]
        omega
      · rw [if_neg hc]
        simp only [List.length_cons, List.length_append, List.length_replicate]
        omega

/-- `zfill` is idempotent: re-padding a padded string changes nothing
(`_trim_partitions` pads again what `update_data`/`delete_data`/`query_data`
already padded). -/
theorem zfill_idem (n : Nat) (s : String) : zfill n (zfill n s) = zfill n s := by
  unfold zfill
  exact congrArg String.mk (pad_chars_of_le (le_length_pad_chars n s.data))

/-! ### Decimal-value lemmas for the zero-padding order property -/

/-- An ASCII decimal digit. -/
def is_digit_char (c : Char) : Bool := 48 ≤ c.toNat && c.toNat ≤ 57

/-- A string made only of decimal digits. -/
def all_digits (s : String) : Bool := s.data.all is_digit_char

/-- The numeric value of one digit. -/
def digit_val (c : Char) : Nat := c.toNat - 48

/-- The numeric value of a digit list read as a decimal numeral. -/
def chars_val (l : List Char) : Nat := l.foldl (fun a c => 10 * a + digit_val c) 0

/-- The numeric value of a digit string. -/
def digits_val (s : String) : Nat := chars_val s.data

theorem chars_val_foldl (l : List Char) : ∀ a : Nat,
    l.foldl (fun a c => 10 * a + digit_val c) a = a * 10 ^ l.length + chars_val l := by
  induction l with
  | nil => intro a; simp [chars_val]
  | cons c r ih =>
    intro a
    have hr : chars_val (c :: r) = r.foldl (fun a c => 10 * a + digit_val c)
        (10 * 0 + digit_val c) := rfl
    simp only [List.foldl_cons, List.length_cons]
    rw [ih (10 * a + digit_val c), hr, ih (10 * 0 + digit_val c)]
    ring

theorem chars_val_cons (c : Char) (r : List Char) :
    chars_val (c :: r) = digit_val c * 10 ^ r.length + chars_val r := by
  have hr : chars_val (c :: r) = r.foldl (fun a c => 10 * a + digit_val c)
      (10 * 0 + digit_val c) := rfl
  rw [hr, chars_val_foldl r (10 * 0 + digit_val c)]
  ring

theorem chars_val_lt (l : List Char) (h : l.all is_digit_char = true) :
    chars_val l < 10 ^ l.length := by
  induction l with
  | nil => simp [chars_val]
  | cons c r ih =>
    simp only [List.all_cons, Bool.and_eq_true] at h
    have hc : digit_val c ≤ 9 := by
      have := h.1
      simp only [is_digit_char, Bool.and_eq_true, decide_eq_true_eq] at this
      unfold digit_val
      omega
    have hr := ih h.2
    rw [chars_val_cons]
    simp only [List.length_cons, pow_succ]
    calc digit_val c * 10 ^ r.length + chars_val r
        < digit_val c * 10 ^ r.length + 10 ^ r.length := by omega
      _ = (digit_val c + 1) * 10 ^ r.length := by ring
      _ ≤ 10 * 10 ^ r.length := Nat.mul_le_mul_right _ (by omega)
      _ = 10 ^ r.length * 10 := by ring

/-- On equal-length digit lists, lexicographic order is numeric order. -/
theorem lex_lt_iff_chars_val {l1 : List Char} : ∀ {l2 : List Char},
    l1.length = l2.length → l1.all is_digit_char = true → l2.all is_digit_char = true →
    (lex_lt l1 l2 = true ↔ chars_val l1 < chars_val l2) := by
  induction l1 with
  | nil =>
    intro l2 hlen _ _
    cases l2 with
    | nil => simp [lex_lt, chars_val]
    | cons d s => simp at hlen
  | cons c r ih =>
    intro l2 hlen h1 h2
    cases l2 with
    | nil => simp at hlen
    | cons d s =>
      simp only [List.length_cons] at hlen
      have hlen2 : r.length = s.length := by omega
      simp only [List.all_cons, Bool.and_eq_true] at h1 h2
      have hc : 48 ≤ c.toNat ∧ c.toNat ≤ 57 := by
        have := h1.1
        simp only [is_digit_char, Bool.and_eq_true, decide_eq_true_eq] at this
        exact this
      have hd : 48 ≤ d.toNat ∧ d.toNat ≤ 57 := by
        have := h2.1
        simp only [is_digit_char, Bool.and_eq_true, decide_eq_true_eq] at this
        exact this
      have hb1 : chars_val r < 10 ^ r.length := chars_val_lt r h1.2
      have hb2 : chars_val s < 10 ^ s.length := chars_val_lt s h2.2
      rw [chars_val_cons, chars_val_cons, ← hlen2]
      by_cases hcd : c.toNat < d.toNat
      · have hdig : digit_val c + 1 ≤ digit_val d := by unfold digit_val; omega
        have hlt2 : digit_val c * 10 ^ r.length + chars_val r <
            digit_val d * 10 ^ r.length + chars_val s :=
          calc digit_val c * 10 ^ r.length + chars_val r
              < (digit_val c + 1) * 10 ^ r.length := by
                simp only [Nat.add_mul, Nat.one_mul]
                omega
            _ ≤ digit_val d * 10 ^ r.length := Nat.mul_le_mul_right _ hdig
            _ ≤ digit_val d * 10 ^ r.length + chars_val s := Nat.le_add_right _ _
        simp only [lex_lt, if_pos hcd]
        exact iff_of_true trivial hlt2
      · by_cases hdc : d.toNat < c.toNat
        · have hdig : digit_val d + 1 ≤ digit_val c := by unfold digit_val; omega
          have hge : digit_val d * 10 ^ r.length + chars_val s ≤
              digit_val c * 10 ^ r.length + chars_val r := by
            have hb2b : chars_val s < 10 ^ r.length := by rw [hlen2]; exact hb2
            calc digit_val d * 10 ^ r.length + chars_val s
                ≤ (digit_val d + 1) * 10 ^ r.length := by
                  simp only [Nat.add_mul, Nat.one_mul]
                  omega
              _ ≤ digit_val c * 10 ^ r.length := Nat.mul_le_mul_right _ hdig
              _ ≤ digit_val c * 10 ^ r.length + chars_val r := Nat.le_add_right _ _
          simp only [lex_lt, if_neg hcd, if_pos hdc]
          exact iff_of_false (by simp) (by omega)
        · have hdig : digit_val c = digit_val d := by unfold digit_val; omega
          simp only [lex_lt, if_neg hcd, if_neg hdc, hdig, Nat.add_lt_add_iff_left]
          exact ih hlen2 h1.2 h2.2

theorem chars_val_replicate_zero_append (k : Nat) (l : List Char) :
    chars_val (List.replicate k '0' ++ l) = chars_val l := by
  have hz : ∀ m : Nat, (List.replicate m '0').foldl
      (fun a c => 10 * a + digit_val c) 0 = 0 := by
    intro m
    induction m with
    | zero => rfl
    | succ m ihm =>
      rw [List.replicate_succ]
      simpa [digit_val] using ihm
  simp only [chars_val, List.foldl_append, hz]

/-- For a digit string no longer than the width, `zfill` is pure left
`'0'`-padding. -/
theorem zfill_digits_data {n : Nat} {s : String} (h : all_digits s = true)
    (hlen : s.length ≤ n) :
    (zfill n s).data = List.replicate (n - s.length) '0' ++ s.data := by
  have hsd : s.data.length = s.length := rfl
  show pad_chars n s.data = _
  rcases Nat.lt_or_ge s.length n with hlt | hge
  · cases hd : s.data with
    | nil =>
      have h0 : s.length = 0 := by rw [← hsd, hd]; rfl
      rw [pad_chars_nil n (by omega)]
      simp [h0]
    | cons c rest =>
      have hrl : s.length = rest.length + 1 := by rw [← hsd, hd]; rfl
      have hcdig : is_digit_char c = true := by
        unfold all_digits at h
        rw [hd] at h
        simp only [List.all_cons, Bool.and_eq_true] at h
        exact h.1
      have hc : ¬ (c = '-' ∨ c = '+') := by
        simp only [is_digit_char, Bool.and_eq_true, decide_eq_true_eq] at hcdig
        rintro (rfl | rfl) <;> simp at hcdig
      rw [pad_chars_cons n c rest (by omega), if_neg hc, hrl]
  · have h0 : n - s.length = 0 := by omega
    rw [h0, pad_chars_of_le (by omega)]
    rfl

/-! ### Association-list and state-update lemmas -/

theorem lookup_filter_ne {α : Type} {k q : Nat} (h : q ≠ k) :
    ∀ l : List (Nat × α), (l.filter (fun kv => kv.1 != k)).lookup q = l.lookup q := by
  intro l
  induction l with
  | nil => rfl
  | cons a t ih =>
    cases a with
    | mk a1 a2 =>
      by_cases ha : a1 = k
      · subst ha
        have hqa : (q == a1) = false := by simp [h]
        simp [List.filter_cons, List.lookup, hqa]
        exact ih
      · have hf : ((a1, a2).1 != k) = true := by simp [ha]
        by_cases hqa : q = a1
        · subst hqa
          simp [List.filter_cons, hf, List.lookup]
        · simp [List.filter_cons, hf, List.lookup, show (q == a1) = false by simp [hqa]]
          exact ih

theorem lookup_set_entry_self {α : Type} (l : List (Nat × α)) (k : Nat) (v : α) :
    (set_entry l k v).lookup k = some v := by
  simp [set_entry, List.lookup]

theorem lookup_set_entry_ne {α : Type} (l : List (Nat × α)) (k q : Nat) (v : α)
    (h : q ≠ k) : (set_entry l k v).lookup q = l.lookup q := by
  simp only [set_entry, List.lookup, show (q == k) = false by simp [h]]
  exact lookup_filter_ne h l

theorem lookup_del_entry_self {α : Type} (l : List (Nat × α)) (k : Nat) :
    (del_entry l k).lookup k = none := by
  induction l with
  | nil => rfl
  | cons a t ih =>
    by_cases ha : a.1 = k
    · have : (a.1 != k) = false := by simp [ha]
      simp only [del_entry, List.filter_cons, this, cond_false] at *
      exact ih
    · have : (a.1 != k) = true := by simp [ha]
      simp only [del_entry, List.filter_cons, this, cond_true] at *
      cases a with
      | mk a1 a2 =>
        simp only [List.lookup, show (k == a1) = false by simp; omega] at *
        exact ih

theorem lookup_del_entry_ne {α : Type} (l : List (Nat × α)) (k q : Nat)
    (h : q ≠ k) : (del_entry l k).lookup q = l.lookup q := lookup_filter_ne h l

/-- `lookup` hits only genuine entries. -/
theorem lookup_mem {β : Type} {l : List (String × β)} {c : String} {v : β}
    (h : l.lookup c = some v) : (c, v) ∈ l := by
  induction l with
  | nil => simp [List.lookup] at h
  | cons a t ih =>
    cases a with
    | mk a1 a2 =>
      by_cases hc : c = a1
      · subst hc
        simp only [List.lookup, beq_self_eq_true] at h
        cases h
        exact List.mem_cons_self _ _
      · simp only [List.lookup, show (c == a1) = false by simp [hc]] at h
        exact List.mem_cons_of_mem _ (ih h)

theorem write_partition_parts (w : Warehouse) (t : Table) (p : Nat) :
    (write_partition w t p).parts = w.parts := rfl

theorem write_partition_buffer_rows (w : Warehouse) (t : Table) (p : Nat) :
    (write_partition w t p).buffer_rows = w.buffer_rows := rfl

theorem flush_pending_buffer_rows (w : Warehouse) : (flush_pending w).buffer_rows = 0 := by
  unfold flush_pending
  by_cases h : w.buffer_rows > 0
  · rw [if_pos h]
  · rw [if_neg h]
    omega

theorem flush_pending_of_zero (w : Warehouse) (h : w.buffer_rows = 0) :
    flush_pending w = w := by
  unfold flush_pending
  rw [if_neg (by omega)]

theorem flush_pending_idem (w : Warehouse) :
    flush_pending (flush_pending w) = flush_pending w :=
  flush_pending_of_zero _ (flush_pending_buffer_rows w)

theorem py_min_isSome {l : List String} (h : l ≠ []) : ∃ m, py_min l = some m := by
  cases l with
  | nil => exact absurd rfl h
  | cons x xs => exact ⟨_, rfl⟩

theorem py_max_isSome {l : List String} (h : l ≠ []) : ∃ m, py_max l = some m := by
  cases l with
  | nil => exact absurd rfl h
  | cons x xs => exact ⟨_, rfl⟩

/-! ### Claim theorems: configuration, empty queries, padding order -/

/-- C10: `query_data(key_column, [])` never returns an empty result list —
pruning takes `min`/`max` over the empty key set and raises `ValueError` —
and the buffer has already been flushed as a side effect (the resulting
state is exactly `flush_pending w`). -/
theorem C10_empty_keys_raises (w : Warehouse) (kc : String) :
    query_data w kc [] = (flush_pending w, .error "ValueError") := by
  unfold query_data
  by_cases h : kc = "id" <;> simp [h, trim_partitions, py_min]

/-- C7 counterexample: constructing with `partition_size = 0` raises no
configuration error; the instance accepts `add_data` and answers
`query_data`, so a warehouse accepting operations *is* produced for a
non-positive partition size, contradicting the claim. -/
theorem C7_counterexample :
    (query_data (add_data (mkWarehouse 0) [("id", Value.vStr "1")]) "id"
      [Value.vStr "1"]).2 = .ok [[("id", Value.vStr "1")]] := by rfl

/-- C7 amended: the constructor performs no validation of
`partition_size`; with `partition_size ≤ 0` the warehouse is created and
operates, every `add_data` immediately flushing a one-row partition. -/
theorem C7_amended (ps : Int) (hps : ps ≤ 0) (row : Row) :
    (add_data (mkWarehouse ps) row).parts = [0] ∧
    (add_data (mkWarehouse ps) row).buffer = [] ∧
    (add_data (mkWarehouse ps) row).store.lookup 0 = some (table_from_rows [row]) := by
  unfold add_data mkWarehouse
  rw [if_neg (by simp; omega)]
  refine ⟨rfl, rfl, ?_⟩
  simp [write_partition, lookup_set_entry_self]

/-- C7 amended witness at `partition_size = 0`. -/
theorem C7_amended_witness :
    (add_data (mkWarehouse 0) [("id", Value.vStr "1")]).parts = [0] ∧
    (add_data (mkWarehouse 0) [("id", Value.vStr "1")]).buffer = [] ∧
    (add_data (mkWarehouse 0) [("id", Value.vStr "1")]).store.lookup 0 =
      some (table_from_rows [[("id", Value.vStr "1")]]) :=
  C7_amended 0 (by decide) [("id", Value.vStr "1")]

/-- C8: for identifier-column values the pruning comparison key is the
string form zero-padded to width 8 (`zfill 8`); under that key "10"
compares greater than "9"; in general, for digit strings of at most 8
digits, lexicographic comparison of padded keys agrees with numeric
comparison, while unpadded lexicographic comparison ranks "10" below "9". -/
theorem C8_zero_padding_order :
    (∀ s t : String, all_digits s = true → all_digits t = true →
      s.length ≤ 8 → t.length ≤ 8 →
      (str_lt (zfill 8 s) (zfill 8 t) = true ↔ digits_val s < digits_val t))
    ∧ str_lt (zfill 8 "9") (zfill 8 "10") = true
    ∧ str_lt "10" "9" = true := by
  refine ⟨?_, by decide, by decide⟩
  intro s t hs ht hls hlt
  unfold str_lt
  rw [zfill_digits_data hs hls, zfill_digits_data ht hlt]
  have h1 : s.data.length = s.length := rfl
  have h2 : t.data.length = t.length := rfl
  have hlen : (List.replicate (8 - s.length) '0' ++ s.data).length =
      (List.replicate (8 - t.length) '0' ++ t.data).length := by
    simp only [List.length_append, List.length_replicate]
    omega
  have hd1 : (List.replicate (8 - s.length) '0' ++ s.data).all is_digit_char = true := by
    simp only [List.all_append, Bool.and_eq_true]
    refine ⟨List.all_eq_true.mpr ?_, hs⟩
    intro c hcm
    rw [List.eq_of_mem_replicate hcm]
    decide
  have hd2 : (List.replicate (8 - t.length) '0' ++ t.data).all is_digit_char = true := by
    simp only [List.all_append, Bool.and_eq_true]
    refine ⟨List.all_eq_true.mpr ?_, ht⟩
    intro c hcm
    rw [List.eq_of_mem_replicate hcm]
    decide
  rw [lex_lt_iff_chars_val hlen hd1 hd2,
      chars_val_replicate_zero_append, chars_val_replicate_zero_append]
  exact Iff.rfl

/-- C8 witness at the values "9" and "10". -/
theorem C8_zero_padding_order_witness :
    (all_digits "9" = true ∧ all_digits "10" = true ∧
      ("9" : String).length ≤ 8 ∧ ("10" : String).length ≤ 8) ∧
    (str_lt (zfill 8 "9") (zfill 8 "10") = true ↔ digits_val "9" < digits_val "10") :=
  ⟨by decide,
    C8_zero_padding_order.1 "9" "10" (by decide) (by decide) (by decide) (by decide)⟩

/-! ### Row conservation and partition-id lemmas -/

/-- Total number of rows across the written partitions in the index. -/
def stored_rows (w : Warehouse) : Nat :=
  (w.parts.map (fun p => match w.store.lookup p with
    | some t => t.rows.length
    | none => 0)).sum

theorem add_data_step (w : Warehouse) (row : Row)
    (hnotin : w.parts.length ∉ w.parts) :
    ((add_data w row).parts = w.parts ∧ (add_data w row).store = w.store ∧
      (add_data w row).buffer = w.buffer ++ [row]) ∨
    ((add_data w row).parts = w.parts ++ [w.parts.length] ∧
      (add_data w row).buffer = [] ∧
      stored_rows (add_data w row) = stored_rows w + (w.buffer.length + 1)) := by
  by_cases hc : ((w.buffer_rows + 1 : Nat) : Int) < w.partition_size
  · left
    simp only [add_data]
    rw [if_pos hc]
    exact ⟨rfl, rfl, rfl⟩
  · right
    simp only [add_data]
    rw [if_neg hc]
    refine ⟨rfl, rfl, ?_⟩
    unfold stored_rows
    simp only [write_partition]
    rw [List.map_append, List.sum_append]
    have h1 : w.parts.map (fun q =>
        match (set_entry w.store w.parts.length
          (table_from_rows (w.buffer ++ [row]))).lookup q with
        | some t => t.rows.length
        | none => 0) =
      w.parts.map (fun q => match w.store.lookup q with
        | some t => t.rows.length
        | none => 0) := by
      apply List.map_congr_left
      intro q hq
      have hne : q ≠ w.parts.length := by
        intro heq
        exact hnotin (heq ▸ hq)
      rw [lookup_set_entry_ne _ _ _ _ hne]
    rw [h1]
    simp [lookup_set_entry_self, table_from_rows]

theorem adds_fold_invariant (rows : List Row) : ∀ w : Warehouse,
    w.parts = List.range w.parts.length →
    ((rows.foldl add_data w).parts = List.range (rows.foldl add_data w).parts.length ∧
     stored_rows (rows.foldl add_data w) + (rows.foldl add_data w).buffer.length =
       stored_rows w + w.buffer.length + rows.length) := by
  induction rows with
  | nil => intro w h; exact ⟨h, by simp⟩
  | cons r rs ih =>
    intro w h
    simp only [List.foldl_cons]
    have hnotin : w.parts.length ∉ w.parts := by
      intro hmem
      have hmem2 : w.parts.length ∈ List.range w.parts.length := by
        rw [← h]
        exact hmem
      exact absurd (List.mem_range.mp hmem2) (lt_irrefl _)
    rcases add_data_step w r hnotin with ⟨hp, hs, hb⟩ | ⟨hp, hb, hsr⟩
    · have h2 : (add_data w r).parts = List.range ((add_data w r).parts.length) := by
        rw [hp]; exact h
      obtain ⟨ha, hc⟩ := ih (add_data w r) h2
      refine ⟨ha, ?_⟩
      rw [hc]
      have hsrw : stored_rows (add_data w r) = stored_rows w := by
        unfold stored_rows
        rw [hp, hs]
      rw [hsrw, hb]
      simp only [List.length_append, List.length_cons, List.length_nil]
      omega
    · have h2 : (add_data w r).parts = List.range ((add_data w r).parts.length) := by
        obtain ⟨n, hn1⟩ : ∃ n, w.parts = List.range n := ⟨w.parts.length, h⟩
        rw [hp, hn1]
        simp [List.range_succ]
      obtain ⟨ha, hc⟩ := ih (add_data w r) h2
      refine ⟨ha, ?_⟩
      rw [hc, hsr, hb]
      simp only [List.length_append, List.length_cons, List.length_nil]
      omega

/-- C2: over any sequence of `add_data` calls on a fresh warehouse with
positive partition size, the rows stored in written partitions plus the
buffered rows always add up to the number of rows inserted. -/
theorem C2_row_conservation (ps : Int) (hps : 0 < ps) (rows : List Row) :
    stored_rows (rows.foldl add_data (mkWarehouse ps)) +
      (rows.foldl add_data (mkWarehouse ps)).buffer.length = rows.length := by
  have h := adds_fold_invariant rows (mkWarehouse ps) rfl
  simpa [stored_rows, mkWarehouse] using h.2

/-- C2 witness: three inserts at partition size 2. -/
theorem C2_row_conservation_witness :
    stored_rows ([[("id", Value.vStr "1")], [("id", Value.vStr "2")],
        [("id", Value.vStr "3")]].foldl add_data (mkWarehouse 2)) +
      ([[("id", Value.vStr "1")], [("id", Value.vStr "2")],
        [("id", Value.vStr "3")]].foldl add_data (mkWarehouse 2)).buffer.length = 3 :=
  C2_row_conservation 2 (by decide)
    [[("id", Value.vStr "1")], [("id", Value.vStr "2")], [("id", Value.vStr "3")]]

/-! ### Scan predicates and trim/loop characterization lemmas -/

/-- A partition whose stored table holds at least one row matching the
key under string equality. -/
def part_has_match (w : Warehouse) (kc key_str : String) (p : Nat) : Bool :=
  match w.store.lookup p with
  | some t => t.rows.any (row_match kc key_str)
  | none => false

/-- Well-formedness for a scan: every indexed partition is readable and
its schema holds the key column. -/
def wf_scan (w : Warehouse) (kc : String) : Bool :=
  w.parts.all (fun p =>
    match w.store.lookup p with
    | none => false
    | some t => t.schema.contains kc)

/-- At most one indexed partition holds a matching row. -/
def at_most_one_match (w : Warehouse) (kc key_str : String) : Bool :=
  w.parts.all (fun p => w.parts.all (fun q =>
    !(part_has_match w kc key_str p) || !(part_has_match w kc key_str q) || p == q))

theorem trim_singleton_eq (w : Warehouse) (kc k : String) :
    trim_partitions w kc [k] = some (w.parts.filter
      (keep_part w.metadata kc (if kc = "id" then zfill 8 k else k)
                               (if kc = "id" then zfill 8 k else k))) := by
  unfold trim_partitions
  by_cases h : kc = "id" <;> simp [h, py_min, py_max]

theorem delete_loop_spec (w : Warehouse) (kc ks : String) :
    ∀ (cands : List Nat) (w1 : Warehouse),
    delete_loop w kc ks cands = .ok w1 →
    (w1 = w ∧ ∀ p ∈ cands, part_has_match w kc ks p = false) ∨
    (∃ p t, p ∈ cands ∧ w.store.lookup p = some t ∧
        t.rows.any (row_match kc ks) = true ∧
        (((t.rows.filter (row_mask_false kc ks)).isEmpty = true ∧
          w1 = { w with store := del_entry w.store p,
                        metadata := del_entry w.metadata p,
                        parts := w.parts.erase p }) ∨
         ((t.rows.filter (row_mask_false kc ks)).isEmpty = false ∧
          w1 = write_partition w ⟨t.schema, t.rows.filter (row_mask_false kc ks)⟩ p))) := by
  intro cands
  induction cands with
  | nil =>
    intro w1 h
    simp only [delete_loop] at h
    cases h
    left
    exact ⟨rfl, fun p hp => absurd hp (List.not_mem_nil p)⟩
  | cons p rest ih =>
    intro w1 h
    simp only [delete_loop] at h
    cases hst : w.store.lookup p with
    | none => simp only [hst] at h; simp at h
    | some t =>
      simp only [hst] at h
      by_cases hcon : t.schema.contains kc = true
      · rw [if_pos hcon] at h
        by_cases hany : t.rows.any (row_match kc ks) = true
        · rw [if_pos hany] at h
          by_cases hemp : (t.rows.filter (row_mask_false kc ks)).isEmpty = true
          · rw [if_pos hemp] at h
            cases h
            right
            exact ⟨p, t, List.mem_cons_self _ _, hst, hany, Or.inl ⟨hemp, rfl⟩⟩
          · rw [if_neg hemp] at h
            cases h
            right
            exact ⟨p, t, List.mem_cons_self _ _, hst, hany,
              Or.inr ⟨by simpa using hemp, rfl⟩⟩
        · rw [if_neg hany] at h
          rcases ih w1 h with ⟨hw, hall⟩ | ⟨q, t2, hq, hrest⟩
          · left
            refine ⟨hw, ?_⟩
            intro q hq
            rcases List.mem_cons.mp hq with rfl | hq2
            · simp only [part_has_match, hst]
              simpa using hany
            · exact hall q hq2
          · right
            exact ⟨q, t2, List.mem_cons_of_mem _ hq, hrest⟩
      · rw [if_neg hcon] at h
        simp at h

theorem delete_loop_total (w : Warehouse) (kc ks : String) :
    ∀ cands : List Nat,
    (∀ p ∈ cands, ∃ t, w.store.lookup p = some t ∧ t.schema.contains kc = true) →
    ∃ w1, delete_loop w kc ks cands = .ok w1 := by
  intro cands
  induction cands with
  | nil => intro _; exact ⟨w, rfl⟩
  | cons p rest ih =>
    intro hall
    obtain ⟨t, hst, hcon⟩ := hall p (List.mem_cons_self _ _)
    simp only [delete_loop, hst]
    rw [if_pos hcon]
    by_cases hany : t.rows.any (row_match kc ks) = true
    · rw [if_pos hany]
      by_cases hemp : (t.rows.filter (row_mask_false kc ks)).isEmpty = true
      · rw [if_pos hemp]; exact ⟨_, rfl⟩
      · rw [if_neg hemp]; exact ⟨_, rfl⟩
    · rw [if_neg hany]
      exact ih (fun q hq => hall q (List.mem_cons_of_mem _ hq))

theorem query_loop_no_match (w : Warehouse) (kc : String) (ks : List String) :
    ∀ (cands : List Nat) (acc : List Row),
    (∀ p ∈ cands, ∃ t, w.store.lookup p = some t ∧ t.schema.contains kc = true ∧
        t.rows.any (row_member kc ks) = false) →
    query_loop w kc ks cands acc = .ok acc := by
  intro cands
  induction cands with
  | nil => intro acc _; rfl
  | cons p rest ih =>
    intro acc hall
    obtain ⟨t, hst, hcon, hany⟩ := hall p (List.mem_cons_self _ _)
    simp only [query_loop, hst]
    rw [if_pos hcon, if_neg (by simp [hany])]
    exact ih acc (fun q hq => hall q (List.mem_cons_of_mem _ hq))

/-! ### Claim C3: partition ids and index removal -/

/-- A concrete trace: partition size 1, insert ids "1" and "2". -/
def trace_two_ids : Warehouse :=
  add_data (add_data (mkWarehouse 1) [("id", Value.vStr "1")]) [("id", Value.vStr "2")]

/-- The state after `delete_data("id", "1")` on `trace_two_ids`:
partition 0 is gone, partition 1 remains. -/
def trace_two_ids_after_del : Warehouse :=
  ⟨1, [], 0,
    [(1, ⟨["id"], [[("id", Value.vStr "2")]]⟩)],
    [(1, [("id", ⟨.scal (some (.vStr "00000002")),
                  .scal (some (.vStr "00000002")), 1⟩)])],
    [1]⟩

/-- C3 counterexample: partition ids are reused.  With partition size 1,
after inserting ids "1","2" (partitions 0 and 1) and deleting id "1"
(partition 0 disappears), the next insert is assigned partition id
`len(partitions) = 1` — an id already assigned and still live — leaving
the index as `[1, 1]`, refuting "strictly greater than every identifier
ever assigned". -/
theorem C3_counterexample :
    trace_two_ids.parts = [0, 1] ∧
    delete_data trace_two_ids "id" (Value.vStr "1") = .ok trace_two_ids_after_del ∧
    (add_data trace_two_ids_after_del [("id", Value.vStr "3")]).parts = [1, 1] := by
  exact ⟨rfl, rfl, rfl⟩

/-- C3 amended: a new partition's id is the current index length, so over
sequences of `add_data` alone (no deletions) the index is exactly
`[0, 1, ..., n-1]` — ids strictly increase and are never reused; once a
deletion empties a partition its id can be reused.  A partition leaves the
index exactly when a `delete_data` call empties it: a successful delete
either keeps the index unchanged (rewriting a still-nonempty partition in
place at most), or removes exactly the partition whose surviving row set
is empty. -/
theorem C3_amended :
    (∀ (ps : Int) (rows : List Row),
      (rows.foldl add_data (mkWarehouse ps)).parts =
        List.range (rows.foldl add_data (mkWarehouse ps)).parts.length)
    ∧ (∀ (w : Warehouse) (kc : String) (kv : Value) (w1 : Warehouse),
        delete_data w kc kv = .ok w1 →
        (w1.parts = (flush_pending w).parts ∧
          ∀ p ∈ (flush_pending w).parts,
            (w1.store.lookup p).isSome = (((flush_pending w).store.lookup p).isSome)) ∨
        (∃ p t, p ∈ (flush_pending w).parts ∧
          (flush_pending w).store.lookup p = some t ∧
          t.rows.any (row_match kc (py_str kv)) = true ∧
          (t.rows.filter (row_mask_false kc (py_str kv))).isEmpty = true ∧
          w1.parts = (flush_pending w).parts.erase p ∧
          w1.store.lookup p = none)) := by
  constructor
  · intro ps rows
    exact (adds_fold_invariant rows (mkWarehouse ps) rfl).1
  · intro w kc kv w1 h
    simp only [delete_data] at h
    simp only [trim_singleton_eq] at h
    rcases delete_loop_spec (flush_pending w) kc (py_str kv) _ w1 h with
      ⟨rfl, _⟩ | ⟨p, t, hp, hst, hany, hsub⟩
    · left
      exact ⟨rfl, fun p _ => rfl⟩
    · have hpp : p ∈ (flush_pending w).parts := (List.mem_filter.mp hp).1
      rcases hsub with ⟨hemp, rfl⟩ | ⟨hemp, rfl⟩
      · right
        exact ⟨p, t, hpp, hst, hany, hemp, rfl, lookup_del_entry_self _ _⟩
      · left
        refine ⟨rfl, ?_⟩
        intro q _
        by_cases hq : q = p
        · subst hq
          simp only [write_partition]
          rw [lookup_set_entry_self, hst]
          rfl
        · simp only [write_partition]
          rw [lookup_set_entry_ne _ _ _ _ hq]

/-- C3 amended witness: the add-only invariant at three inserts, and the
delete characterization at the concrete deletion trace. -/
theorem C3_amended_witness :
    ([[("id", Value.vStr "1")], [("id", Value.vStr "2")]].foldl add_data
        (mkWarehouse 1)).parts =
      List.range ([[("id", Value.vStr "1")], [("id", Value.vStr "2")]].foldl add_data
        (mkWarehouse 1)).parts.length ∧
    ((trace_two_ids_after_del.parts = (flush_pending trace_two_ids).parts ∧
        ∀ p ∈ (flush_pending trace_two_ids).parts,
          (trace_two_ids_after_del.store.lookup p).isSome =
            (((flush_pending trace_two_ids).store.lookup p).isSome)) ∨
      (∃ p t, p ∈ (flush_pending trace_two_ids).parts ∧
        (flush_pending trace_two_ids).store.lookup p = some t ∧
        t.rows.any (row_match "id" (py_str (Value.vStr "1"))) = true ∧
        (t.rows.filter (row_mask_false "id" (py_str (Value.vStr "1")))).isEmpty = true ∧
        trace_two_ids_after_del.parts = (flush_pending trace_two_ids).parts.erase p ∧
        trace_two_ids_after_del.store.lookup p = none)) :=
  ⟨C3_amended.1 1 [[("id", Value.vStr "1")], [("id", Value.vStr "2")]],
   C3_amended.2 trace_two_ids "id" (Value.vStr "1") trace_two_ids_after_del rfl⟩

theorem wf_scan_spec {w : Warehouse} {kc : String} (h : wf_scan w kc = true) :
    ∀ p ∈ w.parts, ∃ t, w.store.lookup p = some t ∧ t.schema.contains kc = true := by
  intro p hp
  have h2 := List.all_eq_true.mp h p hp
  cases hst : w.store.lookup p with
  | none => simp only [hst] at h2; simp at h2
  | some t =>
    simp only [hst] at h2
    exact ⟨t, rfl, h2⟩

theorem at_most_one_spec {w : Warehouse} {kc k : String}
    (h : at_most_one_match w kc k = true) {p q : Nat} (hp : p ∈ w.parts)
    (hq : q ∈ w.parts) (hmp : part_has_match w kc k p = true)
    (hmq : part_has_match w kc k q = true) : p = q := by
  have h1 := List.all_eq_true.mp h p hp
  have h2 := List.all_eq_true.mp h1 q hq
  simp [hmp, hmq] at h2
  exact h2

/-- Membership in a one-element key set is plain string equality. -/
theorem row_member_singleton (kc k : String) :
    row_member kc [k] = row_match kc k := by
  funext r
  unfold row_member row_match row_mask
  cases h : r.lookup kc with
  | none => rfl
  | some v =>
    simp only [List.contains]
    by_cases hb : py_str v = k <;> simp [hb]

/-- The rows surviving a delete rewrite contain no match. -/
theorem filter_mask_false_no_match (kc k : String) (rows : List Row) :
    (rows.filter (row_mask_false kc k)).any (row_match kc k) = false := by
  rw [List.any_eq_false]
  intro r hr
  have hmf : row_mask_false kc k r = true := (List.mem_filter.mp hr).2
  unfold row_mask_false at hmf
  unfold row_match
  cases h : row_mask kc k r with
  | none => simp
  | some b =>
    rw [h] at hmf
    simp at hmf
    simp [hmf]

theorem trim_key_singleton (k : String) (kc : String) :
    (if kc = "id" then [zfill 8 k] else [k]) =
      [if kc = "id" then zfill 8 k else k] := by
  by_cases h : kc = "id" <;> simp [h]

theorem flush_pending_write (w : Warehouse) (t : Table) (p : Nat)
    (h : w.buffer_rows = 0) :
    flush_pending (write_partition w t p) = write_partition w t p :=
  flush_pending_of_zero _ h

theorem flush_pending_del_state (w : Warehouse) (p : Nat) (h : w.buffer_rows = 0) :
    flush_pending { w with store := del_entry w.store p,
                           metadata := del_entry w.metadata p,
                           parts := w.parts.erase p } =
      { w with store := del_entry w.store p,
               metadata := del_entry w.metadata p,
               parts := w.parts.erase p } :=
  flush_pending_of_zero _ h

/-! ### Claim C4: delete then query -/

/-- C4 counterexample: with duplicate keys across partitions
(partition 0 and partition 1 both hold a row with id "1"),
`delete_data("id","1")` removes only the first matching partition and a
subsequent `query_data("id", ["1"])` still returns a row whose id
string-equals "1". -/
theorem C4_counterexample :
    (delete_data (add_data (add_data (mkWarehouse 1) [("id", Value.vStr "1")])
        [("id", Value.vStr "1")]) "id" (Value.vStr "1")).map
      (fun w1 => (query_data w1 "id" [Value.vStr "1"]).2)
      = .ok (.ok [[("id", Value.vStr "1")]]) ∧
    row_match "id" (py_str (Value.vStr "1")) [("id", Value.vStr "1")] = true :=
  ⟨rfl, rfl⟩

/-- C4 amended: provided every indexed partition is readable with the key
column in its schema, the index holds no duplicate partition ids, and at
most one partition contains rows matching the key, `delete_data(k, v)`
succeeds and a following `query_data(k, [v])` returns the empty result —
in particular no row whose column `k` string-equals `v`.  (In general the
claim fails: matches spread over several partitions survive the delete, as
the counterexample shows.) -/
theorem C4_amended (w : Warehouse) (kc : String) (kv : Value)
    (hwf : wf_scan (flush_pending w) kc = true)
    (hnd : (flush_pending w).parts.Nodup)
    (hone : at_most_one_match (flush_pending w) kc (py_str kv) = true) :
    ∃ w1, delete_data w kc kv = .ok w1 ∧ (query_data w1 kc [kv]).2 = .ok [] := by
  have hcands : ∀ p ∈ (flush_pending w).parts.filter
      (keep_part (flush_pending w).metadata kc
        (if kc = "id" then zfill 8 (if kc = "id" then zfill 8 (py_str kv) else py_str kv)
          else if kc = "id" then zfill 8 (py_str kv) else py_str kv)
        (if kc = "id" then zfill 8 (if kc = "id" then zfill 8 (py_str kv) else py_str kv)
          else if kc = "id" then zfill 8 (py_str kv) else py_str kv)),
      ∃ t, (flush_pending w).store.lookup p = some t ∧ t.schema.contains kc = true := by
    intro p hp
    exact wf_scan_spec hwf p (List.mem_filter.mp hp).1
  obtain ⟨w1, hdel⟩ := delete_loop_total (flush_pending w) kc (py_str kv) _ hcands
  have hdel_data : delete_data w kc kv = .ok w1 := by
    simp only [delete_data, trim_singleton_eq]
    exact hdel
  refine ⟨w1, hdel_data, ?_⟩
  rcases delete_loop_spec (flush_pending w) kc (py_str kv) _ w1 hdel with
    ⟨rfl, hnomatch⟩ | ⟨p, t, hp, hst, hany, hsub⟩
  · simp only [query_data, List.map_cons, List.map_nil]
    rw [flush_pending_of_zero _ (flush_pending_buffer_rows w), trim_key_singleton]
    simp only [trim_singleton_eq]
    apply query_loop_no_match
    intro q hq
    obtain ⟨t, hst, hcon⟩ := wf_scan_spec hwf q (List.mem_filter.mp hq).1
    refine ⟨t, hst, hcon, ?_⟩
    rw [row_member_singleton]
    have h3 := hnomatch q hq
    simp only [part_has_match, hst] at h3
    exact h3
  · have hppart : p ∈ (flush_pending w).parts := (List.mem_filter.mp hp).1
    have hpm : part_has_match (flush_pending w) kc (py_str kv) p = true := by
      simp only [part_has_match, hst]
      exact hany
    rcases hsub with ⟨hemp, rfl⟩ | ⟨hemp, rfl⟩
    · simp only [query_data, List.map_cons, List.map_nil]
      rw [flush_pending_del_state _ _ (flush_pending_buffer_rows w), trim_key_singleton]
      simp only [trim_singleton_eq]
      apply query_loop_no_match
      intro q hq
      have hq1 : q ∈ (flush_pending w).parts.erase p := (List.mem_filter.mp hq).1
      have hqF : q ∈ (flush_pending w).parts := List.mem_of_mem_erase hq1
      have hqne : q ≠ p := ((List.Nodup.mem_erase_iff hnd).mp hq1).1
      obtain ⟨t2, hst2, hcon2⟩ := wf_scan_spec hwf q hqF
      refine ⟨t2, ?_, hcon2, ?_⟩
      · show (del_entry (flush_pending w).store p).lookup q = some t2
        rw [lookup_del_entry_ne _ _ _ hqne]
        exact hst2
      · rw [row_member_singleton]
        cases hm : t2.rows.any (row_match kc (py_str kv)) with
        | false => rfl
        | true =>
          have hqm : part_has_match (flush_pending w) kc (py_str kv) q = true := by
            simp only [part_has_match, hst2]
            exact hm
          exact absurd (at_most_one_spec hone hqF hppart hqm hpm) hqne
    · simp only [query_data, List.map_cons, List.map_nil]
      rw [flush_pending_write _ _ _ (flush_pending_buffer_rows w), trim_key_singleton]
      simp only [trim_singleton_eq]
      apply query_loop_no_match
      intro q hq
      have hqF : q ∈ (flush_pending w).parts := (List.mem_filter.mp hq).1
      by_cases hqp : q = p
      · subst hqp
        refine ⟨⟨t.schema, t.rows.filter (row_mask_false kc (py_str kv))⟩, ?_, ?_, ?_⟩
        · show (set_entry (flush_pending w).store q _).lookup q = _
          rw [lookup_set_entry_self]
        · obtain ⟨t3, hst3, hcon3⟩ := wf_scan_spec hwf q hqF
          rw [hst] at hst3
          cases hst3
          exact hcon3
        · rw [row_member_singleton]
          exact filter_mask_false_no_match kc (py_str kv) t.rows
      · obtain ⟨t2, hst2, hcon2⟩ := wf_scan_spec hwf q hqF
        refine ⟨t2, ?_, hcon2, ?_⟩
        · show (set_entry (flush_pending w).store p _).lookup q = some t2
          rw [lookup_set_entry_ne _ _ _ _ hqp]
          exact hst2
        · rw [row_member_singleton]
          cases hm : t2.rows.any (row_match kc (py_str kv)) with
          | false => rfl
          | true =>
            have hqm : part_has_match (flush_pending w) kc (py_str kv) q = true := by
              simp only [part_has_match, hst2]
              exact hm
            exact absurd (at_most_one_spec hone hqF hppart hqm hpm) hqp

/-! ### Update-loop characterization -/

theorem contains_of_mem {l : List String} {c : String} (h : c ∈ l) :
    l.contains c = true := by
  simpa using h

theorem update_loop_spec (w : Warehouse) (kc ks : String)
    (patch : List (String × Value)) :
    ∀ (cands : List Nat) (w1 : Warehouse),
    update_loop w kc ks patch cands = .ok w1 →
    (w1 = w ∧ ∀ p ∈ cands, part_has_match w kc ks p = false) ∨
    (∃ pre p post t, cands = pre ++ p :: post ∧
      (∀ q ∈ pre, part_has_match w kc ks q = false) ∧
      w.store.lookup p = some t ∧ t.rows.any (row_match kc ks) = true ∧
      w1 = write_partition w ⟨t.schema, t.rows.map (patch_row t.schema patch kc ks)⟩ p) := by
  intro cands
  induction cands with
  | nil =>
    intro w1 h
    simp only [update_loop] at h
    cases h
    left
    exact ⟨rfl, fun p hp => absurd hp (List.not_mem_nil p)⟩
  | cons p rest ih =>
    intro w1 h
    simp only [update_loop] at h
    cases hst : w.store.lookup p with
    | none => simp only [hst] at h; simp at h
    | some t =>
      simp only [hst] at h
      by_cases hcon : t.schema.contains kc = true
      · rw [if_pos hcon] at h
        by_cases hany : t.rows.any (row_match kc ks) = true
        · rw [if_pos hany] at h
          cases h
          right
          exact ⟨[], p, rest, t, rfl, fun q hq => absurd hq (List.not_mem_nil q),
            hst, hany, rfl⟩
        · rw [if_neg hany] at h
          rcases ih w1 h with ⟨hw, hall⟩ | ⟨pre, q, post, t2, hcands, hpre, hrest⟩
          · left
            refine ⟨hw, ?_⟩
            intro q hq
            rcases List.mem_cons.mp hq with rfl | hq2
            · simp only [part_has_match, hst]
              simpa using hany
            · exact hall q hq2
          · right
            refine ⟨p :: pre, q, post, t2, by simp [hcands], ?_, hrest⟩
            intro q2 hq2
            rcases List.mem_cons.mp hq2 with rfl | hq3
            · simp only [part_has_match, hst]
              simpa using hany
            · exact hpre q2 hq3
      · rw [if_neg hcon] at h
        simp at h

theorem update_loop_total (w : Warehouse) (kc ks : String)
    (patch : List (String × Value)) :
    ∀ cands : List Nat,
    (∀ p ∈ cands, ∃ t, w.store.lookup p = some t ∧ t.schema.contains kc = true) →
    ∃ w1, update_loop w kc ks patch cands = .ok w1 := by
  intro cands
  induction cands with
  | nil => intro _; exact ⟨w, rfl⟩
  | cons p rest ih =>
    intro hall
    obtain ⟨t, hst, hcon⟩ := hall p (List.mem_cons_self _ _)
    simp only [update_loop, hst]
    rw [if_pos hcon]
    by_cases hany : t.rows.any (row_match kc ks) = true
    · rw [if_pos hany]
      exact ⟨_, rfl⟩
    · rw [if_neg hany]
      exact ih (fun q hq => hall q (List.mem_cons_of_mem _ hq))

/-- A cell written by `patch_row` always sits under an existing schema
column: patched rows never mention columns outside the old schema. -/
theorem patch_row_keys (schema : List String) (patch : List (String × Value))
    (kc ks : String) (r : Row) :
    ∀ c v, (patch_row schema patch kc ks r).lookup c = some v →
      schema.contains c = true := by
  intro c v h
  have hmem := lookup_mem h
  unfold patch_row at hmem
  rw [List.mem_filterMap] at hmem
  obtain ⟨c0, hc0, hf⟩ := hmem
  have hcc : c0 = c := by
    cases hp : patch.lookup c0 with
    | some nv =>
      rw [hp] at hf
      cases hm : row_mask kc ks r with
      | some b =>
        cases b with
        | true => rw [hm] at hf; simp at hf; exact hf.1
        | false =>
          rw [hm] at hf
          cases hr : r.lookup c0 with
          | some v0 => rw [hr] at hf; simp at hf; exact hf.1
          | none => rw [hr] at hf; simp at hf
      | none => rw [hm] at hf; simp at hf
    | none =>
      rw [hp] at hf
      cases hr : r.lookup c0 with
      | some v0 => rw [hr] at hf; simp at hf; exact hf.1
      | none => rw [hr] at hf; simp at hf
  subst hcc
  exact contains_of_mem hc0

/-! ### Claims C5 and C9: update semantics -/

/-- A concrete trace with a partition whose schema lacks `id` before a
partition that holds the matching `id` row. -/
def mixed_schema_trace : Warehouse :=
  add_data (add_data (mkWarehouse 1) [("name", Value.vStr "a")]) [("id", Value.vStr "1")]

/-- C5 counterexample: with a candidate partition (partition 0, schema
`["name"]`) lacking the key column ahead of the partition that holds the
matching row (partition 1), `update_data` raises `KeyError` instead of
patching the first matching partition and returning. -/
theorem C5_counterexample :
    update_data mixed_schema_trace "id" (Value.vStr "1")
        [("name", Value.vStr "X")] = .error "KeyError" ∧
    part_has_match mixed_schema_trace "id" (py_str (Value.vStr "1")) 1 = true :=
  ⟨rfl, rfl⟩

/-- C5 amended: provided every indexed partition is readable with the key
column in its schema, `update_data` flushes the buffer, scans the pruned
candidates in index order and either finds no match (state = flushed
state) or, at the first candidate with a matching row, rewrites exactly
that partition with the patch applied (restricted to its existing
columns) to every matching row, leaving every other partition unchanged. -/
theorem C5_amended (w : Warehouse) (kc : String) (kv : Value)
    (patch : List (String × Value))
    (hwf : wf_scan (flush_pending w) kc = true) :
    ∃ w1, update_data w kc kv patch = .ok w1 ∧
      ∃ cands, trim_partitions (flush_pending w) kc
          [if kc = "id" then zfill 8 (py_str kv) else py_str kv] = some cands ∧
        ((w1 = flush_pending w ∧
            ∀ p ∈ cands, part_has_match (flush_pending w) kc (py_str kv) p = false) ∨
         (∃ pre p post t, cands = pre ++ p :: post ∧
            (∀ q ∈ pre, part_has_match (flush_pending w) kc (py_str kv) q = false) ∧
            (flush_pending w).store.lookup p = some t ∧
            t.rows.any (row_match kc (py_str kv)) = true ∧
            w1.parts = (flush_pending w).parts ∧
            (∀ q, q ≠ p → w1.store.lookup q = (flush_pending w).store.lookup q) ∧
            w1.store.lookup p = some ⟨t.schema,
              t.rows.map (patch_row t.schema patch kc (py_str kv))⟩)) := by
  have hcands : ∀ p ∈ (flush_pending w).parts.filter
      (keep_part (flush_pending w).metadata kc
        (if kc = "id" then zfill 8 (if kc = "id" then zfill 8 (py_str kv) else py_str kv)
          else if kc = "id" then zfill 8 (py_str kv) else py_str kv)
        (if kc = "id" then zfill 8 (if kc = "id" then zfill 8 (py_str kv) else py_str kv)
          else if kc = "id" then zfill 8 (py_str kv) else py_str kv)),
      ∃ t, (flush_pending w).store.lookup p = some t ∧ t.schema.contains kc = true := by
    intro p hp
    exact wf_scan_spec hwf p (List.mem_filter.mp hp).1
  obtain ⟨w1, hloop⟩ := update_loop_total (flush_pending w) kc (py_str kv) patch _ hcands
  refine ⟨w1, ?_, ?_⟩
  · simp only [update_data, trim_singleton_eq]
    exact hloop
  · refine ⟨_, trim_singleton_eq (flush_pending w) kc _, ?_⟩
    rcases update_loop_spec (flush_pending w) kc (py_str kv) patch _ w1 hloop with
      ⟨rfl, hall⟩ | ⟨pre, p, post, t, hcs, hpre, hst, hany, rfl⟩
    · exact Or.inl ⟨rfl, hall⟩
    · right
      refine ⟨pre, p, post, t, hcs, hpre, hst, hany, rfl, ?_, ?_⟩
      · intro q hq
        simp only [write_partition]
        rw [lookup_set_entry_ne _ _ _ _ hq]
      · simp only [write_partition]
        rw [lookup_set_entry_self]

/-- C5 amended witness at the three-row trace, patching the name of the
row with id "1". -/
def named_rows_trace : Warehouse :=
  add_data (add_data (add_data (mkWarehouse 2)
    [("id", Value.vStr "1"), ("name", Value.vStr "a")])
    [("id", Value.vStr "2"), ("name", Value.vStr "b")])
    [("id", Value.vStr "3"), ("name", Value.vStr "c")]

theorem C5_amended_witness :
    ∃ w1, update_data named_rows_trace "id" (Value.vStr "1")
        [("name", Value.vStr "X")] = .ok w1 ∧
      ∃ cands, trim_partitions (flush_pending named_rows_trace) "id"
          [if "id" = "id" then zfill 8 (py_str (Value.vStr "1"))
            else py_str (Value.vStr "1")] = some cands ∧
        ((w1 = flush_pending named_rows_trace ∧
            ∀ p ∈ cands, part_has_match (flush_pending named_rows_trace) "id"
              (py_str (Value.vStr "1")) p = false) ∨
         (∃ pre p post t, cands = pre ++ p :: post ∧
            (∀ q ∈ pre, part_has_match (flush_pending named_rows_trace) "id"
              (py_str (Value.vStr "1")) q = false) ∧
            (flush_pending named_rows_trace).store.lookup p = some t ∧
            t.rows.any (row_match "id" (py_str (Value.vStr "1"))) = true ∧
            w1.parts = (flush_pending named_rows_trace).parts ∧
            (∀ q, q ≠ p → w1.store.lookup q =
              (flush_pending named_rows_trace).store.lookup q) ∧
            w1.store.lookup p = some ⟨t.schema,
              t.rows.map (patch_row t.schema [("name", Value.vStr "X")] "id"
                (py_str (Value.vStr "1")))⟩)) :=
  C5_amended named_rows_trace "id" (Value.vStr "1") [("name", Value.vStr "X")] (by decide)

/-- C9: a successful `update_data` never widens a partition's schema —
every partition in the result either is untouched or keeps exactly its
previous column set, and every cell of a rewritten partition sits under a
pre-existing column, so patch keys outside the schema are written
nowhere. -/
theorem C9_update_schema_frame (w : Warehouse) (kc : String) (kv : Value)
    (patch : List (String × Value)) (w1 : Warehouse)
    (h : update_data w kc kv patch = .ok w1) :
    ∀ p t1, w1.store.lookup p = some t1 →
      (flush_pending w).store.lookup p = some t1 ∨
      ∃ t, (flush_pending w).store.lookup p = some t ∧ t1.schema = t.schema ∧
        ∀ r1 ∈ t1.rows, ∀ c v, r1.lookup c = some v →
          t.schema.contains c = true := by
  simp only [update_data, trim_singleton_eq] at h
  rcases update_loop_spec (flush_pending w) kc (py_str kv) patch _ w1 h with
    ⟨rfl, _⟩ | ⟨pre, p0, post, t, hcs, hpre, hst, hany, rfl⟩
  · intro p t1 h1
    exact Or.inl h1
  · intro p t1 h1
    by_cases hp : p = p0
    · subst hp
      right
      simp only [write_partition] at h1
      rw [lookup_set_entry_self] at h1
      cases h1
      refine ⟨t, hst, rfl, ?_⟩
      intro r1 hr1 c v hcv
      rw [List.mem_map] at hr1
      obtain ⟨r0, _, rfl⟩ := hr1
      exact patch_row_keys t.schema patch kc (py_str kv) r0 c v hcv
    · left
      simp only [write_partition] at h1
      rw [lookup_set_entry_ne _ _ _ _ hp] at h1
      exact h1

/-- The concrete result of patching the name of id "1" in
`named_rows_trace`. -/
def named_rows_after_update : Warehouse :=
  ⟨2, [], 0,
    [(0, ⟨["id", "name"],
        [[("id", Value.vStr "1"), ("name", Value.vStr "X")],
         [("id", Value.vStr "2"), ("name", Value.vStr "b")]]⟩),
     (1, ⟨["id", "name"],
        [[("id", Value.vStr "3"), ("name", Value.vStr "c")]]⟩)],
    [(0, [("id", ⟨.scal (some (.vStr "00000001")),
                  .scal (some (.vStr "00000002")), 2⟩),
          ("name", ⟨.scal (some (.vStr "X")),
                    .scal (some (.vStr "b")), 2⟩)]),
     (1, [("id", ⟨.scal (some (.vStr "00000003")),
                  .scal (some (.vStr "00000003")), 1⟩),
          ("name", ⟨.scal (some (.vStr "c")),
                    .scal (some (.vStr "c")), 1⟩)])],
    [0, 1]⟩

/-- C9 witness at the concrete patched partition 0. -/
theorem C9_update_schema_frame_witness :
    (flush_pending named_rows_trace).store.lookup 0 =
      some ⟨["id", "name"],
        [[("id", Value.vStr "1"), ("name", Value.vStr "X")],
         [("id", Value.vStr "2"), ("name", Value.vStr "b")]]⟩ ∨
    ∃ t, (flush_pending named_rows_trace).store.lookup 0 = some t ∧
      (⟨["id", "name"],
        [[("id", Value.vStr "1"), ("name", Value.vStr "X")],
         [("id", Value.vStr "2"), ("name", Value.vStr "b")]]⟩ : Table).schema = t.schema ∧
      ∀ r1 ∈ (⟨["id", "name"],
        [[("id", Value.vStr "1"), ("name", Value.vStr "X")],
         [("id", Value.vStr "2"), ("name", Value.vStr "b")]]⟩ : Table).rows,
        ∀ c v, r1.lookup c = some v → t.schema.contains c = true :=
  C9_update_schema_frame named_rows_trace "id" (Value.vStr "1")
    [("name", Value.vStr "X")] named_rows_after_update rfl 0
    ⟨["id", "name"],
      [[("id", Value.vStr "1"), ("name", Value.vStr "X")],
       [("id", Value.vStr "2"), ("name", Value.vStr "b")]]⟩ rfl

/-! ### Result-row lemmas and the missing-column claim -/

theorem to_py_row_lookup_none {schema : List String} {r : Row} {kc : String}
    (h : r.lookup kc = none) : (to_py_row schema r).lookup kc = none := by
  cases h2 : (to_py_row schema r).lookup kc with
  | none => rfl
  | some v =>
    have hmem := lookup_mem h2
    unfold to_py_row at hmem
    rw [List.mem_filterMap] at hmem
    obtain ⟨c0, hc0, hf⟩ := hmem
    cases hr : r.lookup c0 with
    | none => rw [hr] at hf; simp at hf
    | some v0 =>
      rw [hr] at hf
      simp at hf
      obtain ⟨rfl, rfl⟩ := hf
      rw [h] at hr
      cases hr

/-- `to_pylist` keeps the key cell intact whenever the key column belongs
to the schema. -/
theorem to_py_row_lookup (schema : List String) (r : Row) (kc : String)
    (h : schema.contains kc = true) :
    (to_py_row schema r).lookup kc = r.lookup kc := by
  induction schema with
  | nil => simp at h
  | cons c cs ih =>
    unfold to_py_row
    simp only [List.filterMap_cons]
    cases hr : r.lookup c with
    | none =>
      by_cases hkc : kc = c
      · subst hkc
        show (to_py_row cs r).lookup kc = r.lookup kc
        rw [hr]
        exact to_py_row_lookup_none hr
      · have hcs : cs.contains kc = true := by
          simp only [List.contains_cons, Bool.or_eq_true,
            show (kc == c) = false by simp [hkc]] at h
          simpa using h
        show (to_py_row cs r).lookup kc = r.lookup kc
        exact ih hcs
    | some v =>
      by_cases hkc : kc = c
      · subst hkc
        simp [List.lookup, hr]
      · have hcs : cs.contains kc = true := by
          simp only [List.contains_cons, Bool.or_eq_true,
            show (kc == c) = false by simp [hkc]] at h
          simpa using h
        simp only [List.lookup, show (kc == c) = false by simp [hkc]]
        show (to_py_row cs r).lookup kc = r.lookup kc
        exact ih hcs

theorem trim_some_of_ne_nil {w : Warehouse} {kc : String} {kl : List String}
    (h : kl ≠ []) :
    ∃ kmin kmax, trim_partitions w kc kl = some
      (w.parts.filter (keep_part w.metadata kc kmin kmax)) := by
  unfold trim_partitions
  have hcknn : (if kc = "id" then kl.map (zfill 8) else kl) ≠ [] := by
    by_cases hid : kc = "id" <;> simp [hid, h]
  obtain ⟨m, hm⟩ := py_min_isSome hcknn
  obtain ⟨M, hM⟩ := py_max_isSome hcknn
  simp only [hm, hM]
  exact ⟨m, M, rfl⟩

theorem query_loop_ok_spec (w : Warehouse) (kc : String) (ks : List String) :
    ∀ (cands : List Nat),
    (∀ p ∈ cands, ∃ t, w.store.lookup p = some t ∧ t.schema.contains kc = true) →
    ∀ acc : List Row, ∃ rs, query_loop w kc ks cands acc = .ok rs ∧
      ∀ r ∈ rs, r ∈ acc ∨ ∃ v, r.lookup kc = some v ∧
        ks.contains (py_str v) = true := by
  intro cands
  induction cands with
  | nil => exact fun _ acc => ⟨acc, rfl, fun r hr => Or.inl hr⟩
  | cons p rest ih =>
    intro hall acc
    obtain ⟨t, hst, hcon⟩ := hall p (List.mem_cons_self _ _)
    simp only [query_loop, hst]
    rw [if_pos hcon]
    by_cases hany : t.rows.any (row_member kc ks) = true
    · rw [if_pos hany]
      obtain ⟨rs, hq, hprop⟩ :=
        ih (fun q hq => hall q (List.mem_cons_of_mem _ hq))
          (acc ++ (t.rows.filter (row_member kc ks)).map (to_py_row t.schema))
      refine ⟨rs, hq, ?_⟩
      intro r hr
      rcases hprop r hr with hacc | hv
      · rcases List.mem_append.mp hacc with h1 | h2
        · exact Or.inl h1
        · right
          rw [List.mem_map] at h2
          obtain ⟨r0, hr0, rfl⟩ := h2
          have hmem : row_member kc ks r0 = true := (List.mem_filter.mp hr0).2
          unfold row_member at hmem
          cases hl : r0.lookup kc with
          | none => simp only [hl] at hmem; simp at hmem
          | some v =>
            refine ⟨v, ?_, ?_⟩
            · rw [to_py_row_lookup _ _ _ hcon]
              exact hl
            · simp only [hl] at hmem
              exact hmem
      · exact Or.inr hv
    · rw [if_neg hany]
      exact ih (fun q hq => hall q (List.mem_cons_of_mem _ hq)) acc

/-- A realistic partition holding a row whose `id` cell is null (its row
dict lacked the key) between rows with ids "1" and "2", indexed with its
computed zone map. -/
def null_cell_table : Table :=
  ⟨["id", "name"],
   [[("id", Value.vStr "1"), ("name", Value.vStr "a")],
    [("name", Value.vStr "b")],
    [("id", Value.vStr "2"), ("name", Value.vStr "c")]]⟩

/-- A warehouse state indexing `null_cell_table` as partition 0. -/
def null_cell_state : Warehouse :=
  ⟨3, [], 0, [(0, null_cell_table)], [(0, compute_meta null_cell_table)], [0]⟩

/-- C6 counterexample: (a) the key column absent from a candidate
partition's schema raises `KeyError` in query and delete rather than
being treated as "never matches"; (b) a row merely lacking the key
*cell* is not left alone either: deleting id "1" from a partition that
also holds a null-id row drops that row too (`table.filter` discards the
inverted null mask), so only the id "2" row survives the rewrite. -/
theorem C6_counterexample :
    (query_data mixed_schema_trace "id" [Value.vStr "1"]).2 = .error "KeyError" ∧
    (delete_data mixed_schema_trace "id" (Value.vStr "1")) = .error "KeyError" ∧
    [("name", Value.vStr "b")] ∈ null_cell_table.rows ∧
    (delete_data null_cell_state "id" (Value.vStr "1")).map
      (fun w1 => w1.store.lookup 0) =
      .ok (some ⟨["id", "name"],
        [[("id", Value.vStr "2"), ("name", Value.vStr "c")]]⟩) :=
  ⟨rfl, rfl, by decide, rfl⟩

/-- C6 amended: a key column absent from a candidate partition's schema
makes query/update/delete raise `KeyError` rather than complete
normally.  A key column absent from an individual *row* is a null cell
that never satisfies the match test: under schema well-formedness every
query succeeds and returns only rows holding a non-null, matching key
value.  Null-cell rows are not exempt from mutation side effects,
though: every partition a successful `delete_data` rewrites retains
only rows whose key cell is non-null and differs from the key — rows
with a null key cell are dropped together with the matches — and every
partition a successful `update_data` rewrites is the `patch_row` image
of the old one, in which each patched column of a null-cell row is
null. -/
theorem C6_missing_column :
    (∀ (w : Warehouse) (kc : String) (keys : List Value), keys ≠ [] →
      wf_scan (flush_pending w) kc = true →
      ∃ rs, (query_data w kc keys).2 = .ok rs ∧
        ∀ r ∈ rs, ∃ v, r.lookup kc = some v ∧
          (keys.map py_str).contains (py_str v) = true)
    ∧ (∀ (w : Warehouse) (kc : String) (keys : List Value) (p : Nat)
        (rest : List Nat) (t : Table),
        trim_partitions (flush_pending w) kc
          (if kc = "id" then (keys.map py_str).map (zfill 8)
            else keys.map py_str) = some (p :: rest) →
        (flush_pending w).store.lookup p = some t →
        t.schema.contains kc = false →
        (query_data w kc keys).2 = .error "KeyError")
    ∧ (∀ (w : Warehouse) (kc : String) (kv : Value) (w1 : Warehouse),
        delete_data w kc kv = .ok w1 →
        ∀ p t1, w1.store.lookup p = some t1 →
          (flush_pending w).store.lookup p = some t1 ∨
          ∀ r1 ∈ t1.rows, ∃ v, r1.lookup kc = some v ∧ py_str v ≠ py_str kv)
    ∧ (∀ (w : Warehouse) (kc : String) (kv : Value)
        (patch : List (String × Value)) (w1 : Warehouse),
        update_data w kc kv patch = .ok w1 →
        ∀ p t1, w1.store.lookup p = some t1 →
          (flush_pending w).store.lookup p = some t1 ∨
          ∃ t, (flush_pending w).store.lookup p = some t ∧
            t1.rows = t.rows.map (patch_row t.schema patch kc (py_str kv)))
    ∧ (∀ (schema : List String) (patch : List (String × Value))
        (kc ks : String) (r : Row) (c : String) (nv : Value),
        row_mask kc ks r = none → patch.lookup c = some nv →
        (patch_row schema patch kc ks r).lookup c = none) := by
  refine ⟨?_, ?_, ?_, ?_, ?_⟩
  · intro w kc keys hk hwf
    simp only [query_data]
    have hknn : keys.map py_str ≠ [] := by simp [hk]
    obtain ⟨kmin, kmax, htrim⟩ :=
      @trim_some_of_ne_nil (flush_pending w) kc
        (if kc = "id" then (keys.map py_str).map (zfill 8) else keys.map py_str)
        (by by_cases hid : kc = "id" <;> simp [hid, hk])
    simp only [flush_pending_idem, htrim]
    obtain ⟨rs, hq, hprop⟩ := query_loop_ok_spec (flush_pending w) kc (keys.map py_str)
      _ (fun p hp => wf_scan_spec hwf p (List.mem_filter.mp hp).1) []
    refine ⟨rs, hq, ?_⟩
    intro r hr
    rcases hprop r hr with hacc | hv
    · simp at hacc
    · exact hv
  · intro w kc keys p rest t htrim hst hcon
    simp only [query_data, flush_pending_idem, htrim]
    simp only [query_loop, hst]
    have hcc : ¬ (t.schema.contains kc = true) := by
      rw [hcon]
      simp
    rw [if_neg hcc]
  · intro w kc kv w1 h
    simp only [delete_data, trim_singleton_eq] at h
    rcases delete_loop_spec (flush_pending w) kc (py_str kv) _ w1 h with
      ⟨rfl, _⟩ | ⟨p0, t, hp0, hst, hany, hsub⟩
    · intro p t1 h1
      exact Or.inl h1
    · rcases hsub with ⟨hemp, rfl⟩ | ⟨hemp, rfl⟩
      · intro p t1 h1
        by_cases hp : p = p0
        · subst hp
          have h1b : (del_entry (flush_pending w).store p).lookup p = some t1 := h1
          rw [lookup_del_entry_self] at h1b
          cases h1b
        · have h1b : (del_entry (flush_pending w).store p0).lookup p = some t1 := h1
          rw [lookup_del_entry_ne _ _ _ hp] at h1b
          exact Or.inl h1b
      · intro p t1 h1
        by_cases hp : p = p0
        · subst hp
          right
          have h1b : (set_entry (flush_pending w).store p
              ⟨t.schema, t.rows.filter (row_mask_false kc (py_str kv))⟩).lookup p
              = some t1 := h1
          rw [lookup_set_entry_self] at h1b
          cases h1b
          intro r1 hr1
          have hmf : row_mask_false kc (py_str kv) r1 = true :=
            (List.mem_filter.mp hr1).2
          unfold row_mask_false row_mask at hmf
          cases hl : r1.lookup kc with
          | none => rw [hl] at hmf; simp at hmf
          | some v =>
            rw [hl] at hmf
            simp at hmf
            exact ⟨v, rfl, hmf⟩
        · have h1b : (set_entry (flush_pending w).store p0
              ⟨t.schema, t.rows.filter (row_mask_false kc (py_str kv))⟩).lookup p
              = some t1 := h1
          rw [lookup_set_entry_ne _ _ _ _ hp] at h1b
          exact Or.inl h1b
  · intro w kc kv patch w1 h
    simp only [update_data, trim_singleton_eq] at h
    rcases update_loop_spec (flush_pending w) kc (py_str kv) patch _ w1 h with
      ⟨rfl, _⟩ | ⟨pre, p0, post, t, hcs, hpre, hst, hany, rfl⟩
    · intro p t1 h1
      exact Or.inl h1
    · intro p t1 h1
      by_cases hp : p = p0
      · subst hp
        right
        have h1b : (set_entry (flush_pending w).store p
            ⟨t.schema, t.rows.map (patch_row t.schema patch kc (py_str kv))⟩).lookup p
            = some t1 := h1
        rw [lookup_set_entry_self] at h1b
        cases h1b
        exact ⟨t, hst, rfl⟩
      · have h1b : (set_entry (flush_pending w).store p0
            ⟨t.schema, t.rows.map (patch_row t.schema patch kc (py_str kv))⟩).lookup p
            = some t1 := h1
        rw [lookup_set_entry_ne _ _ _ _ hp] at h1b
        exact Or.inl h1b
  · intro schema patch kc ks r c nv hmask hpatch
    cases hl : (patch_row schema patch kc ks r).lookup c with
    | none => rfl
    | some v =>
      exfalso
      have hmem := lookup_mem hl
      unfold patch_row at hmem
      rw [List.mem_filterMap] at hmem
      obtain ⟨c0, hc0, hf⟩ := hmem
      cases hp : patch.lookup c0 with
      | some nv0 =>
        simp only [hp, hmask] at hf
        exact Option.noConfusion hf
      | none =>
        simp only [hp] at hf
        cases hr : r.lookup c0 with
        | some v0 =>
          simp [hr] at hf
          obtain ⟨h5, h6⟩ := hf
          subst h5
          rw [hpatch] at hp
          cases hp
        | none =>
          simp [hr] at hf

/-! ### Pruning soundness (claim C1) -/

theorem map_zfill_idem (l : List String) :
    (l.map (zfill 8)).map (zfill 8) = l.map (zfill 8) := by
  rw [List.map_map]
  apply List.map_congr_left
  intro a _
  exact zfill_idem 8 a

theorem val_min_isSome {l : List Value} (h : l ≠ []) : ∃ m, val_min l = some m := by
  cases l with
  | nil => exact absurd rfl h
  | cons x xs => exact ⟨_, rfl⟩

theorem val_max_isSome {l : List Value} (h : l ≠ []) : ∃ m, val_max l = some m := by
  cases l with
  | nil => exact absurd rfl h
  | cons x xs => exact ⟨_, rfl⟩

theorem lookup_map_pair (f : String → ColMeta) :
    ∀ (l : List String) (kc : String), l.contains kc = true →
    (l.map (fun c => (c, f c))).lookup kc = some (f kc) := by
  intro l
  induction l with
  | nil => intro kc h; simp at h
  | cons c cs ih =>
    intro kc h
    by_cases hkc : kc = c
    · subst hkc
      simp [List.lookup]
    · simp only [List.map_cons, List.lookup, show (kc == c) = false by simp [hkc]]
      apply ih
      simp only [List.contains_cons, Bool.or_eq_true,
        show (kc == c) = false by simp [hkc]] at h
      simpa using h

theorem lookup_compute_meta {t : Table} {kc : String}
    (h : t.schema.contains kc = true) :
    (compute_meta t).lookup kc = some (compute_col_meta t kc) :=
  lookup_map_pair (compute_col_meta t) t.schema kc h

theorem compute_meta_not_empty {t : Table} {kc : String}
    (h : t.schema.contains kc = true) : (compute_meta t).isEmpty = false := by
  unfold compute_meta
  cases hs : t.schema with
  | nil => rw [hs] at h; simp at h
  | cons c cs => simp

theorem keep_part_false_elim {md : List (Nat × List (String × ColMeta))}
    {kc kmin kmax : String} {p : Nat} {m : List (String × ColMeta)}
    (hm : md.lookup p = some m) (hne : m.isEmpty = false) {cm : ColMeta}
    (hcm : m.lookup kc = some cm) {oa ob : Option Value}
    (ha : cm.mn = .scal oa) (hb : cm.mx = .scal ob)
    (hkeep : keep_part md kc kmin kmax p = false) :
    str_lt kmax (mscal_str (.scal oa)) = true ∨
    str_lt (mscal_str (.scal ob)) kmin = true := by
  unfold keep_part at hkeep
  simp only [hm, hne, Bool.false_eq_true, if_false, hcm, ha, hb] at hkeep
  by_cases h1 : str_lt kmax (mscal_str (.scal oa)) = true
  · exact Or.inl h1
  · right
    have h1f : str_lt kmax (mscal_str (.scal oa)) = false := by simpa using h1
    cases h2 : str_lt (mscal_str (.scal ob)) kmin with
    | true => rfl
    | false =>
      rw [h1f, h2] at hkeep
      simp at hkeep

theorem overlap_contradiction {kmin kmax pmin pmax x : String}
    (h1 : str_lt x pmin = false) (h2 : str_lt pmax x = false)
    (h3 : str_lt x kmin = false) (h4 : str_lt kmax x = false)
    (hdrop : str_lt kmax pmin = true ∨ str_lt pmax kmin = true) : False := by
  have hcases : ∀ {a b : String}, str_lt a b = false → str_lt b a = true ∨ a = b := by
    intro a b hab
    cases hba : str_lt b a with
    | true => exact Or.inl rfl
    | false => exact Or.inr (str_lt_connex hab hba)
  rcases hdrop with hd | hd
  · rcases hcases h1 with hlt | heq
    · exact absurd (str_lt_trans hd hlt) (by simp [h4])
    · rw [← heq] at hd
      exact absurd hd (by simp [h4])
  · rcases hcases h3 with hlt | heq
    · exact absurd (str_lt_trans hd hlt) (by simp [h2])
    · rw [← heq] at hd
      exact absurd hd (by simp [h2])

/-- Soundness of the zone-map overlap test: a pruned partition whose
metadata is current, whose schema holds the key column, and whose key
column stores only strings, contains no member row. -/
theorem keep_part_sound (w : Warehouse) (kc : String) (key_strs : List String)
    (kmin kmax : String) (p : Nat) (t : Table)
    (hmeta : w.metadata.lookup p = some (compute_meta t))
    (hsch : t.schema.contains kc = true)
    (hstr : ∀ r ∈ t.rows, ∀ v, r.lookup kc = some v → ∃ s, v = Value.vStr s)
    (hkmin : ∀ s ∈ key_strs, str_lt (if kc = "id" then zfill 8 s else s) kmin = false)
    (hkmax : ∀ s ∈ key_strs, str_lt kmax (if kc = "id" then zfill 8 s else s) = false)
    (hkeep : keep_part w.metadata kc kmin kmax p = false) :
    t.rows.any (row_member kc key_strs) = false := by
  cases hany : t.rows.any (row_member kc key_strs) with
  | false => rfl
  | true =>
    exfalso
    rw [List.any_eq_true] at hany
    obtain ⟨r, hr, hmem⟩ := hany
    unfold row_member at hmem
    cases hl : r.lookup kc with
    | none => rw [hl] at hmem; cases hmem
    | some v =>
      rw [hl] at hmem
      obtain ⟨s, rfl⟩ := hstr r hr v hl
      have hsin : s ∈ key_strs := by simpa [py_str] using hmem
      have hnem : (compute_meta t).isEmpty = false := compute_meta_not_empty hsch
      by_cases hid : kc = "id"
      · subst hid
        have hpadne : t.rows.map (fun r => pad_key_cell (r.lookup "id")) ≠ [] := by
          simp only [ne_eq, List.map_eq_nil_iff]
          exact List.ne_nil_of_mem hr
        obtain ⟨a, hpa⟩ := py_min_isSome hpadne
        obtain ⟨b, hpb⟩ := py_max_isSome hpadne
        have hcm_mn : (compute_col_meta t "id").mn = .scal (some (.vStr a)) := by
          unfold compute_col_meta
          rw [if_pos rfl]
          simp only [hpa, hpb]
        have hcm_mx : (compute_col_meta t "id").mx = .scal (some (.vStr b)) := by
          unfold compute_col_meta
          rw [if_pos rfl]
          simp only [hpa, hpb]
        have hdisj := keep_part_false_elim hmeta hnem (lookup_compute_meta hsch)
          hcm_mn hcm_mx hkeep
        simp only [mscal_str, py_str] at hdisj
        have hXp : zfill 8 s ∈ t.rows.map (fun r => pad_key_cell (r.lookup "id")) :=
          List.mem_map.mpr ⟨r, hr, by simp [pad_key_cell, hl, py_str_cell, py_str]⟩
        have h1 : str_lt (zfill 8 s) a = false := (py_min_spec hpa).2 _ hXp
        have h2 : str_lt b (zfill 8 s) = false := (py_max_spec hpb).2 _ hXp
        have h3 := hkmin s hsin
        have h4 := hkmax s hsin
        rw [if_pos rfl] at h3 h4
        exact overlap_contradiction h1 h2 h3 h4 hdisj
      · have hvalne : t.rows.filterMap (fun r => r.lookup kc) ≠ [] := by
          apply List.ne_nil_of_mem
          exact List.mem_filterMap.mpr ⟨r, hr, hl⟩
        obtain ⟨mv, hmv⟩ := val_min_isSome hvalne
        obtain ⟨Mv, hMv⟩ := val_max_isSome hvalne
        obtain ⟨r1, hr1, hlr1⟩ := List.mem_filterMap.mp ((val_min_spec hmv).1)
        obtain ⟨ms, hms⟩ := hstr r1 hr1 mv hlr1
        obtain ⟨r2, hr2, hlr2⟩ := List.mem_filterMap.mp ((val_max_spec hMv).1)
        obtain ⟨Ms, hMs⟩ := hstr r2 hr2 Mv hlr2
        have hcm_mn : (compute_col_meta t kc).mn = .scal (some (.vStr ms)) := by
          unfold compute_col_meta
          rw [if_neg hid]
          simp only [hmv, hms]
        have hcm_mx : (compute_col_meta t kc).mx = .scal (some (.vStr Ms)) := by
          unfold compute_col_meta
          rw [if_neg hid]
          simp only [hMv, hMs]
        have hdisj := keep_part_false_elim hmeta hnem (lookup_compute_meta hsch)
          hcm_mn hcm_mx hkeep
        simp only [mscal_str, py_str] at hdisj
        have hvin : Value.vStr s ∈ t.rows.filterMap (fun r => r.lookup kc) :=
          List.mem_filterMap.mpr ⟨r, hr, hl⟩
        have h1 : str_lt s ms = false := by
          have := (val_min_spec hmv).2 _ hvin
          rw [hms] at this
          exact this
        have h2 : str_lt Ms s = false := by
          have := (val_max_spec hMv).2 _ hvin
          rw [hMs] at this
          exact this
        have h3 := hkmin s hsin
        have h4 := hkmax s hsin
        rw [if_neg hid] at h3 h4
        exact overlap_contradiction h1 h2 h3 h4 hdisj

theorem query_loop_filter_eq (w : Warehouse) (kc : String) (ks : List String)
    (keepf : Nat → Bool) :
    ∀ (l : List Nat),
    (∀ p ∈ l, keepf p = false → ∃ t, w.store.lookup p = some t ∧
        t.schema.contains kc = true ∧ t.rows.any (row_member kc ks) = false) →
    ∀ acc, query_loop w kc ks (l.filter keepf) acc = query_loop w kc ks l acc := by
  intro l
  induction l with
  | nil => intro _ acc; rfl
  | cons p rest ih =>
    intro hs acc
    by_cases hk : keepf p = true
    · rw [List.filter_cons_of_pos hk]
      cases hst : w.store.lookup p with
      | none => simp only [query_loop, hst]
      | some t =>
        simp only [query_loop, hst]
        by_cases hcon : t.schema.contains kc = true
        · rw [if_pos hcon, if_pos hcon]
          by_cases hany : t.rows.any (row_member kc ks) = true
          · rw [if_pos hany, if_pos hany]
            exact ih (fun q hq => hs q (List.mem_cons_of_mem _ hq)) _
          · rw [if_neg hany, if_neg hany]
            exact ih (fun q hq => hs q (List.mem_cons_of_mem _ hq)) acc
        · rw [if_neg hcon, if_neg hcon]
    · rw [List.filter_cons_of_neg hk]
      obtain ⟨t, hst, hcon, hany⟩ := hs p (List.mem_cons_self _ _) (by simpa using hk)
      simp only [query_loop, hst]
      rw [if_pos hcon, if_neg (by simp [hany])]
      exact ih (fun q hq => hs q (List.mem_cons_of_mem _ hq)) acc

theorem trim_eq_general (w : Warehouse) (kc : String) (kl : List String)
    {kmin kmax : String}
    (hkm : py_min (if kc = "id" then kl.map (zfill 8) else kl) = some kmin)
    (hkM : py_max (if kc = "id" then kl.map (zfill 8) else kl) = some kmax) :
    trim_partitions w kc kl = some
      (w.parts.filter (keep_part w.metadata kc kmin kmax)) := by
  unfold trim_partitions
  simp only [hkm, hkM]

/-- Stronger well-formedness for pruning soundness: every indexed
partition is readable, its zone-map entry is the one computed from its
current content, the key column is in its schema, and the key column
holds only string values (null cells allowed). -/
def wf_query (w : Warehouse) (kc : String) : Bool :=
  w.parts.all (fun p =>
    match w.store.lookup p with
    | none => false
    | some t =>
      decide (w.metadata.lookup p = some (compute_meta t)) &&
      t.schema.contains kc &&
      t.rows.all (fun r => match r.lookup kc with
        | some (.vStr _) => true
        | some (.vInt _) => false
        | none => true))

theorem wf_query_spec {w : Warehouse} {kc : String} (h : wf_query w kc = true) :
    ∀ p ∈ w.parts, ∃ t, w.store.lookup p = some t ∧
      w.metadata.lookup p = some (compute_meta t) ∧ t.schema.contains kc = true ∧
      ∀ r ∈ t.rows, ∀ v, r.lookup kc = some v → ∃ s, v = Value.vStr s := by
  intro p hp
  have h2 := List.all_eq_true.mp h p hp
  cases hst : w.store.lookup p with
  | none => simp only [hst] at h2; simp at h2
  | some t =>
    simp only [hst] at h2
    simp only [Bool.and_eq_true, decide_eq_true_eq] at h2
    obtain ⟨⟨hm, hc⟩, hall⟩ := h2
    refine ⟨t, rfl, hm, hc, ?_⟩
    intro r hr v hv
    have h3 := List.all_eq_true.mp hall r hr
    cases v with
    | vStr s => exact ⟨s, rfl⟩
    | vInt n =>
      simp only [hv] at h3
      cases h3

/-- A trace with an integer-typed column: zone-map bounds are numeric but
the overlap test compares their decimal strings. -/
def int_column_trace : Warehouse :=
  add_data (add_data (mkWarehouse 2) [("age", Value.vInt 9)]) [("age", Value.vInt 10)]

/-- C1 counterexample: for the integer column `age` with stored values 9
and 10, the zone-map bounds stringify to "9" and "10", and the string
overlap test prunes the partition for the key "9" ("9" > "10"
lexicographically) although the row-level mask would match — the pruned
scan returns nothing while the exhaustive scan returns the row: a false
negative. -/
theorem C1_counterexample :
    (query_data int_column_trace "age" [Value.vInt 9]).2 = .ok [] ∧
    (spec_exhaustive_scan int_column_trace "age" [Value.vInt 9]).2 =
      .ok [[("age", Value.vInt 9)]] :=
  ⟨rfl, rfl⟩

/-- C1 amended: pruning is lossless whenever the key column stores only
*string* values in every partition (the zone maps then use the same
lexicographic order as the overlap test; for the `id` column the shared
8-digit padding makes the comparison consistent as well): with current
metadata and the key column present in every schema, the pruned
`query_data` returns exactly what the exhaustive unpruned scan returns,
for every non-empty key list.  Partitions or columns lacking zone-map
bounds are always kept as candidates (pruning fails open).  For
integer-typed columns the claim fails (see the counterexample): numeric
bounds are compared as strings, which can prune a matching partition. -/
theorem C1_pruning_no_false_negatives :
    (∀ (w : Warehouse) (kc : String) (keys : List Value), keys ≠ [] →
      wf_query (flush_pending w) kc = true →
      (query_data w kc keys).2 = (spec_exhaustive_scan w kc keys).2)
    ∧ (∀ (md : List (Nat × List (String × ColMeta))) (kc kmin kmax : String) (p : Nat),
        (md.lookup p = none ∨
         ∃ m, md.lookup p = some m ∧
           (m.lookup kc = none ∨
            ∃ cm, m.lookup kc = some cm ∧ (cm.mn = .pyNone ∨ cm.mx = .pyNone))) →
        keep_part md kc kmin kmax p = true) := by
  constructor
  · intro w kc keys hk hwf
    simp only [query_data, spec_exhaustive_scan]
    have hKLne : (if kc = "id" then (keys.map py_str).map (zfill 8)
        else keys.map py_str) ≠ [] := by
      by_cases hid : kc = "id" <;> simp [hid, hk]
    have hKL : (if kc = "id" then
        ((if kc = "id" then (keys.map py_str).map (zfill 8)
          else keys.map py_str)).map (zfill 8)
        else (if kc = "id" then (keys.map py_str).map (zfill 8)
          else keys.map py_str)) =
        (if kc = "id" then (keys.map py_str).map (zfill 8) else keys.map py_str) := by
      by_cases hid : kc = "id" <;> simp [hid, map_zfill_idem, zfill_idem]
    obtain ⟨kmin, hkm⟩ := py_min_isSome hKLne
    obtain ⟨kmax, hkM⟩ := py_max_isSome hKLne
    rw [trim_eq_general (flush_pending w) kc _ (by rw [hKL]; exact hkm)
      (by rw [hKL]; exact hkM)]
    have hsound : ∀ p ∈ (flush_pending w).parts,
        keep_part (flush_pending w).metadata kc kmin kmax p = false →
        ∃ t, (flush_pending w).store.lookup p = some t ∧
          t.schema.contains kc = true ∧
          t.rows.any (row_member kc (keys.map py_str)) = false := by
      intro p hp hkeepf
      obtain ⟨t, hst, hmeta, hsch, hstr⟩ := wf_query_spec hwf p hp
      refine ⟨t, hst, hsch, ?_⟩
      refine keep_part_sound (flush_pending w) kc (keys.map py_str) kmin kmax p t
        hmeta hsch hstr ?_ ?_ hkeepf
      · intro s hsin
        have hmem : (if kc = "id" then zfill 8 s else s) ∈
            (if kc = "id" then (keys.map py_str).map (zfill 8)
              else keys.map py_str) := by
          by_cases hid : kc = "id"
          · rw [if_pos hid, if_pos hid]
            exact List.mem_map.mpr ⟨s, hsin, rfl⟩
          · rw [if_neg hid, if_neg hid]
            exact hsin
        exact (py_min_spec hkm).2 _ hmem
      · intro s hsin
        have hmem : (if kc = "id" then zfill 8 s else s) ∈
            (if kc = "id" then (keys.map py_str).map (zfill 8)
              else keys.map py_str) := by
          by_cases hid : kc = "id"
          · rw [if_pos hid, if_pos hid]
            exact List.mem_map.mpr ⟨s, hsin, rfl⟩
          · rw [if_neg hid, if_neg hid]
            exact hsin
        exact (py_max_spec hkM).2 _ hmem
    exact query_loop_filter_eq (flush_pending w) kc (keys.map py_str)
      (keep_part (flush_pending w).metadata kc kmin kmax)
      (flush_pending w).parts hsound []
  · intro md kc kmin kmax p hmiss
    unfold keep_part
    rcases hmiss with hnone | ⟨m, hm, hrest⟩
    · simp only [hnone]
    · simp only [hm]
      by_cases he : m.isEmpty = true
      · rw [if_pos he]
      · rw [if_neg he]
        rcases hrest with hln | ⟨cm, hcm, hpn⟩
        · simp only [hln]
        · simp only [hcm]
          rcases hpn with h1 | h2
          · simp only [h1]
          · cases hmn : cm.mn <;> simp only [hmn, h2]

/-- C1 witness: the pruned and exhaustive scans agree on a concrete
string-keyed state. -/
theorem C1_pruning_no_false_negatives_witness :
    (query_data trace_two_ids "id" [Value.vStr "1"]).2 =
      (spec_exhaustive_scan trace_two_ids "id" [Value.vStr "1"]).2 :=
  C1_pruning_no_false_negatives.1 trace_two_ids "id" [Value.vStr "1"]
    (by decide) (by decide)

/-- C4 amended witness: at the two-partition trace with distinct ids,
deleting id "1" then querying it yields the empty result. -/
theorem C4_amended_witness :
    ∃ w1, delete_data trace_two_ids "id" (Value.vStr "1") = .ok w1 ∧
      (query_data w1 "id" [Value.vStr "1"]).2 = .ok [] :=
  C4_amended trace_two_ids "id" (Value.vStr "1") (by decide) (by decide) (by decide)

/-- The concrete state after `delete_data("id","1")` on
`null_cell_state`: the matching row and the null-id row are both gone. -/
def null_cell_after_del : Warehouse :=
  ⟨3, [], 0,
    [(0, ⟨["id", "name"], [[("id", Value.vStr "2"), ("name", Value.vStr "c")]]⟩)],
    [(0, [("id", ⟨.scal (some (.vStr "00000002")),
                  .scal (some (.vStr "00000002")), 1⟩),
          ("name", ⟨.scal (some (.vStr "c")), .scal (some (.vStr "c")), 1⟩)])],
    [0]⟩

/-- The concrete state after `update_data("id","1",{name: X})` on
`null_cell_state`: the null-id row's patched column has become null. -/
def null_cell_after_update : Warehouse :=
  ⟨3, [], 0,
    [(0, ⟨["id", "name"],
        [[("id", Value.vStr "1"), ("name", Value.vStr "X")], [],
         [("id", Value.vStr "2"), ("name", Value.vStr "c")]]⟩)],
    [(0, [("id", ⟨.scal (some (.vStr "00000001")),
                  .scal (some (.vStr "0000None")), 3⟩),
          ("name", ⟨.scal (some (.vStr "X")), .scal (some (.vStr "c")), 3⟩)])],
    [0]⟩

/-- C6 amended witness: a well-formed query returns only matching rows
(at the two-id trace); the schema-missing key column raises `KeyError`
(at the mixed-schema trace); the delete and update conjuncts are
exercised at the null-cell state, where the rewritten partitions really
dropped the null-id row and nulled its patched column; and the
`patch_row` conjunct is exercised at the null-id row itself. -/
theorem C6_missing_column_witness :
    (∃ rs, (query_data trace_two_ids "id" [Value.vStr "1"]).2 = .ok rs ∧
      ∀ r ∈ rs, ∃ v, r.lookup "id" = some v ∧
        (([Value.vStr "1"]).map py_str).contains (py_str v) = true) ∧
    ((query_data mixed_schema_trace "id" [Value.vStr "1"]).2 = .error "KeyError") ∧
    ((flush_pending null_cell_state).store.lookup 0 =
        some ⟨["id", "name"], [[("id", Value.vStr "2"), ("name", Value.vStr "c")]]⟩ ∨
      ∀ r1 ∈ (⟨["id", "name"],
          [[("id", Value.vStr "2"), ("name", Value.vStr "c")]]⟩ : Table).rows,
        ∃ v, r1.lookup "id" = some v ∧ py_str v ≠ py_str (Value.vStr "1")) ∧
    ((flush_pending null_cell_state).store.lookup 0 =
        some ⟨["id", "name"],
          [[("id", Value.vStr "1"), ("name", Value.vStr "X")], [],
           [("id", Value.vStr "2"), ("name", Value.vStr "c")]]⟩ ∨
      ∃ t, (flush_pending null_cell_state).store.lookup 0 = some t ∧
        (⟨["id", "name"],
          [[("id", Value.vStr "1"), ("name", Value.vStr "X")], [],
           [("id", Value.vStr "2"), ("name", Value.vStr "c")]]⟩ : Table).rows =
          t.rows.map (patch_row t.schema [("name", Value.vStr "X")] "id"
            (py_str (Value.vStr "1")))) ∧
    ((patch_row ["id", "name"] [("name", Value.vStr "X")] "id" "1"
        [("name", Value.vStr "b")]).lookup "name" = none) :=
  ⟨C6_missing_column.1 trace_two_ids "id" [Value.vStr "1"] (by decide) (by decide),
   C6_missing_column.2.1 mixed_schema_trace "id" [Value.vStr "1"] 0 [1]
     ⟨["name"], [[("name", Value.vStr "a")]]⟩ rfl rfl rfl,
   C6_missing_column.2.2.1 null_cell_state "id" (Value.vStr "1")
     null_cell_after_del rfl 0
     ⟨["id", "name"], [[("id", Value.vStr "2"), ("name", Value.vStr "c")]]⟩ rfl,
   C6_missing_column.2.2.2.1 null_cell_state "id" (Value.vStr "1")
     [("name", Value.vStr "X")] null_cell_after_update rfl 0
     ⟨["id", "name"],
       [[("id", Value.vStr "1"), ("name", Value.vStr "X")], [],
        [("id", Value.vStr "2"), ("name", Value.vStr "c")]]⟩ rfl,
   C6_missing_column.2.2.2.2 ["id", "name"] [("name", Value.vStr "X")] "id" "1"
     [("name", Value.vStr "b")] "name" (Value.vStr "X") rfl rfl⟩
